import Mathlib

/-!
# Verification of the typings-generator resolution pipeline

Shallow embedding of `src/bin/generate.js`: the namespace registry, class
and member model, the type-annotation converter, the relative namer, the
resolution pass (`Klass.postProcess`) and the declaration builder, together
with proofs about the claims of the specification.

JavaScript `Map`s are embedded as insertion-ordered association lists,
strings as Lean `String`, machine semantics (truthiness of strings and
options, first-occurrence `String.replace`, anchored regexes) are spelled
out definition by definition next to the source construct they translate.
-/

namespace TypGen

instance {ε α : Type} [DecidableEq ε] [DecidableEq α] : DecidableEq (Except ε α) :=
  fun x y =>
    match x, y with
    | .ok a, .ok b =>
      if h : a = b then isTrue (by rw [h]) else isFalse (fun hh => h (Except.ok.inj hh))
    | .error a, .error b =>
      if h : a = b then isTrue (by rw [h]) else isFalse (fun hh => h (Except.error.inj hh))
    | .ok _, .error _ => isFalse (fun hh => Except.noConfusion hh)
    | .error _, .ok _ => isFalse (fun hh => Except.noConfusion hh)

/-! ## Association lists (the embedding of JavaScript `Map`) -/

/-- `Map.get`: the value at the first occurrence of the key, if any. -/
def alGet {α β : Type} [DecidableEq α] (k : α) : List (α × β) → Option β
  | [] => none
  | (k', v) :: t => if k' = k then some v else alGet k t

/-- `Map.set`: replace the value at the first occurrence of the key in
place, else append a new entry (JS `Map` keeps insertion order). -/
def alSet {α β : Type} [DecidableEq α] (k : α) (v : β) : List (α × β) → List (α × β)
  | [] => [(k, v)]
  | (k', v') :: t => if k' = k then (k', v) :: t else (k', v') :: alSet k v t

/-- In-place mutation of the value stored at a key (the embedding of
mutating a field of an object held in a `Map`); no-op when absent. -/
def alUpdate {α β : Type} [DecidableEq α] (k : α) (f : β → β) : List (α × β) → List (α × β)
  | [] => []
  | (k', v) :: t => if k' = k then (k', f v) :: t else (k', v) :: alUpdate k f t

/-! ## JavaScript truthiness of optional strings -/

/-- `if (x)` on a possibly-absent string: present and non-empty. -/
def optTruthy : Option String → Bool
  | some s => s ≠ ""
  | none => false

/-! ## Fixed tables of the generator -/

def NAMESPACE_MAP : List (String × String) := [("RSVP", "Ember.RSVP")]

def RELATIVE_NAMES : List (String × String) := [("RSVP.Promise", "Ember.RSVP.Promise")]

def BUILT_IN : List String := ["Function", "String", "Array", "Object"]

def RETURN_TYPES : List (String × String) :=
  [ ("Any", "any"), ("*", "any"), ("Class", "any"), ("Mixed", "any"),
    ("Array", "any[]"), ("Tuple", "any[]"), ("Boolean", "boolean"),
    ("String", "string"), ("Number", "number"), ("Object", "\x7b\x7d"),
    ("Object?", "\x7b\x7d"), ("Hash", "\x7b\x7d"), ("Void", "void"),
    ("RSVP.Promise", "RSVP.Promise<any>"), ("Promise", "Promise<any>") ]

def IGNORE : List String := ["Ember.Templates"]

def ADDITIONAL_CLASSES : List String :=
  ["DOMElement", "Registry", "Transition", "Handlebars.SafeString"]

/-! ## String primitives

The JS string operations are embedded structurally over the character
list of a string (the library's position-based versions do not reduce
inside the kernel, which the concrete witnesses need). -/

/-- JS `s.split(sep)` for a single-character separator: never empty,
keeps empty pieces. -/
def splitOnCharL (sep : Char) : List Char → List (List Char)
  | [] => [[]]
  | c :: cs =>
    if c = sep then [] :: splitOnCharL sep cs
    else
      match splitOnCharL sep cs with
      | [] => [[c]]
      | h :: t => (c :: h) :: t

/-- JS `s.split(sep)` on strings. -/
def splitStr (sep : Char) (s : String) : List String :=
  (splitOnCharL sep s.toList).map List.asString

/-- JS `array.join(sep)`. -/
def joinSep (sep : String) : List String → String
  | [] => ""
  | [x] => x
  | x :: xs => x ++ sep ++ joinSep sep xs

/-- Prefix test on strings via their character lists. -/
def isPrefixStr (p s : String) : Bool :=
  p.toList.isPrefixOf s.toList

/-- Drop the first `n` characters. -/
def dropStr (s : String) (n : Nat) : String :=
  (s.toList.drop n).asString

/-- Take the first `n` characters. -/
def takeStr (s : String) (n : Nat) : String :=
  (s.toList.take n).asString

/-- JS `t.indexOf(threeratherliteraldots) > -1`. -/
def containsDots : List Char → Bool
  | [] => false
  | '.' :: '.' :: '.' :: _ => true
  | _ :: cs => containsDots cs

/-- JS `t.replace(dots, empty)` with a plain-string pattern: only the
first occurrence is removed. -/
def replaceFirstDots : List Char → List Char
  | [] => []
  | '.' :: '.' :: '.' :: rest => rest
  | c :: cs => c :: replaceFirstDots cs

/-! ## The type converter (`convertType`) -/

/-- `\s` of the regexes involved. -/
def isWs (c : Char) : Bool := c = ' ' || c = '\t' || c = '\n' || c = '\r'

/-- Split a character list at the first character satisfying `p`:
the characters before it and the characters after it. -/
def splitFirst (p : Char → Bool) : List Char → Option (List Char × List Char)
  | [] => none
  | c :: cs =>
    if p c then some ([], cs)
    else (splitFirst p cs).map (fun x => (c :: x.1, x.2))

/-- Drop the longest suffix of whitespace. -/
def dropWsRight (l : List Char) : List Char :=
  ((l.reverse.dropWhile isWs)).reverse

/-- `m.replace(/\s*,\s*/, bar)` (non-global): the leftmost match of the
pattern is the run of whitespace hugging the first comma; it is replaced
by the single bar character. No comma: identity. -/
def barFirstComma (l : List Char) : List Char :=
  match splitFirst (fun c => c = ',') l with
  | none => l
  | some (before, after) => dropWsRight before ++ '|' :: after.dropWhile isWs

/-- Index of the last occurrence of a character. -/
def lastIdxOf (c : Char) (l : List Char) : Option Nat :=
  match l.reverse.findIdx? (fun x => x = c) with
  | some k => some (l.length - 1 - k)
  | none => none

/-- `type.replace(/<(.+)>/, m => m.replace(/\s*,\s*/, bar))`: the leftmost
match starts at the first angle-open that still has an angle-close at
least two positions later; the greedy `.+` extends to the last angle-close
of the string.  Only the first comma (with hugging whitespace) inside the
matched slice is turned into a bar. -/
def genericsFix (s : String) : String :=
  let l := s.toList
  match lastIdxOf '>' l, l.findIdx? (fun x => x = '<') with
  | some j, some i =>
    if i + 2 ≤ j then
      ((l.take i) ++ '<' :: barFirstComma ((l.drop (i + 1)).take (j - i - 1))
        ++ '>' :: l.drop (j + 1)).asString
    else s
  | _, _ => s

/-- `type.match(/^\{(.+)\}/)`: anchored curly-brace unwrap; the greedy
group runs to the last closing brace, which must leave at least one
character inside.  Returns the captured group. -/
def curliesExtract (s : String) : Option String :=
  match s.toList with
  | c :: rest =>
    if c = '\x7b' then
      match lastIdxOf '\x7d' rest with
      | some j => if 1 ≤ j then some ((rest.take j).asString) else none
      | none => none
    else none
  | [] => none

/-! ## The relative namer (`relativeName` and its helpers) -/

/-- `/^[A-Z]/.test(name)`. -/
def startsUpper (s : String) : Bool :=
  match s.toList with
  | c :: _ => 'A' ≤ c && c ≤ 'Z'
  | [] => false

/-- The lookup loop of `relativeName`: for `size` from `parts.length`
down to `1`, look for a class named `join(parts[0..size]) ++ "." ++ name`;
the first hit replaces `name` by that class's `fullName`. -/
def resolveGo (find : String → Option String) (parts : List String) (name : String) :
    Nat → String
  | 0 => name
  | size + 1 =>
    match find (joinSep "." (parts.take (size + 1)) ++ "." ++ name) with
    | some fullName => fullName
    | none => resolveGo find parts name size

/-- Step 1 of `relativeName`: repair a bare class name to its full dotted
name by probing successively shorter prefixes of the referencing class. -/
def resolveFullName (find : String → Option String) (parts : List String)
    (name : String) : String :=
  if BUILT_IN.contains name = false && startsUpper name then
    resolveGo find parts name parts.length
  else name

/-- The anchored prefix-stripping regex `^(p1\.(p2\.(...)?)?)` built by
`partsRegexp`, applied by `name.replace(re, empty)`: strip the longest
`join(parts[0..k]) ++ "."` that prefixes `name` (the nested optional
groups are greedy and cumulative); no `k ≥ 1` matching leaves `name`
unchanged. -/
def relStripGo (parts : List String) (name : String) : Nat → String
  | 0 => name
  | k + 1 =>
    let cand := joinSep "." (parts.take (k + 1)) ++ "."
    if isPrefixStr cand name then dropStr name cand.length
    else relStripGo parts name k

/-- `relativeName(name, base)`: `find` embeds
`Klass.find(_, allowMissingNamespace)` projected to the found class's
`fullName` (the only field read). -/
def relativeName (find : String → Option String) (name base : String) : String :=
  let parts := splitStr '.' base
  let name := resolveFullName find parts name
  match RELATIVE_NAMES.lookup name with
  | some v => v
  | none =>
    let relative := relStripGo parts name parts.length
    if BUILT_IN.contains relative then name else relative

/-- `convertType(type, relativeBase)` with explicit recursion fuel: each
recursive call is on a strict substring of the bar-split of the rewritten
annotation, so `type.length + 1` fuel (see `convertType`) is enough; on
exhausted fuel the annotation is returned unchanged. -/
def convertTypeF (find : String → Option String) : Nat → String → Option String → String
  | 0, type, _ => type
  | fuel + 1, type, relativeBase =>
    let type := genericsFix type
    let type :=
      match curliesExtract type with
      | some inner => inner
      | none => ((type.toList.takeWhile (fun c => c ≠ ' ')).asString)
    if type.toList.contains '|' then
      joinSep "|"
        ((splitStr '|' type).map (fun t => convertTypeF find fuel t relativeBase))
    else
      let type :=
        match relativeBase with
        | some base => if base = "" then type else relativeName find type base
        | none => type
      (RETURN_TYPES.lookup type).getD type

/-- `convertType` at its natural fuel. -/
def convertType (find : String → Option String) (type : String)
    (relativeBase : Option String) : String :=
  convertTypeF find (type.length + 1) type relativeBase

/-! ## Raw documentation records (the JSON input shapes) -/

/-- One entry of a `params` array: `{name, type}`. -/
structure ParamData where
  name : String
  type : Option String := none
deriving DecidableEq, Repr

/-- `data.return`: `{type}`. -/
structure RetData where
  type : Option String := none
deriving DecidableEq, Repr

/-- One record of `docs.classitems`.  `clazz` is the JSON field `class`,
`ret` the field `return` (both reserved words); an absent `name` is
embedded as `none` (its truthiness test is `optTruthy`). -/
structure ItemData where
  clazz : String := ""
  name : Option String := none
  itemtype : Option String := none
  type : Option String := none
  static : Bool := false
  access : Option String := none
  description : Option String := none
  deprecated : Bool := false
  deprecationMessage : Option String := none
  params : Option (List ParamData) := none
  ret : Option RetData := none
deriving DecidableEq, Repr

/-- One value of `docs.classes`.  `extends_` is the JSON field `extends`
(reserved word). -/
structure KlassData where
  name : String
  access : Option String := none
  description : Option String := none
  deprecated : Bool := false
  deprecationMessage : Option String := none
  extension_for : Option (List String) := none
  extends_ : Option String := none
  uses : Option (List String) := none
deriving DecidableEq, Repr

/-! ## The class and member model -/

/-- A class is stored in its owning namespace's `classes` map; the storage
key is the owning namespace's path from the root plus the simple name. -/
abbrev StoreKey := List String × String

/-- A resolved method parameter (`ClassItemParam`). -/
structure ClassItemParam where
  name : String
  rest : Bool
  type : String
deriving DecidableEq, Repr

/-- A resolved member (`ClassItem`).  `klass` is the owning class, kept as
its storage key (the JS object reference); `private_` is the field
`private`. -/
structure ClassItem where
  data : ItemData
  name : String
  klass : StoreKey
  itemType : Option String
  type : String
  static : Bool
  description : Option String
  private_ : Bool
  deprecated : Bool
  deprecationMessage : Option String
  params : Option (List ClassItemParam)
  returnType : Option String
deriving DecidableEq, Repr

/-- One entry of a class's `implements` list: normally a reference to a
registered class (`Klass` object in JS, its storage key here), but the
special-cased promise class stores a literal type string. -/
inductive ImplRef where
  | str : String → ImplRef
  | kl : StoreKey → ImplRef
deriving DecidableEq, Repr

/-- The `Klass` object: the constructor-initialized fields plus the
fields mutated by `postProcess` (`postProcessed`, `isNamespace`,
`extendsKlass` — the JS field `extends` — and the evolving `items` and
`implements`). -/
structure Klass where
  data : KlassData
  name : String
  fullName : String
  builtIn : Bool
  mixin : Bool
  type : String
  private_ : Bool
  description : Option String
  deprecated : Bool
  deprecationMessage : Option String
  isTrueClass : Bool
  generics : Option String
  implements : Option (List ImplRef)
  items : List (String × ClassItem)
  postProcessed : Bool
  isNamespace : Bool
  extendsKlass : Option StoreKey
deriving DecidableEq, Repr

/-- The `Klass` constructor. -/
def Klass.new (name : String) (data : KlassData) : Klass :=
  let fullName := data.name
  let builtIn := BUILT_IN.contains fullName
  { data := data
    name := name
    fullName := fullName
    builtIn := builtIn
    mixin := match data.extension_for with | some l => l.length > 0 | none => false
    type := if builtIn then "interface" else "class"
    private_ := data.access = some "private"
    description := data.description
    deprecated := data.deprecated
    deprecationMessage := data.deprecationMessage
    isTrueClass := optTruthy data.extends_ || data.uses.isSome
    generics := if fullName = "Ember.RSVP.Promise" then some "T" else none
    implements :=
      if fullName = "Ember.RSVP.Promise" then some [ImplRef.str "Promise<T>"] else none
    items := []
    postProcessed := false
    isNamespace := false
    extendsKlass := none }

/-! ## Global state: the namespace tree and the class registry

The `Namespace` tree is used by the registry only through the walk of
`Namespace.for`: a dotted path resolves (without autocreate) exactly when
every node along it exists, and autocreate inserts every missing node
along the path.  The registry state therefore carries the set of existing
node paths (prefix-closed by construction) together with the per-namespace
`classes` maps, flattened to one map keyed by (namespace path, simple
name).  The `Namespace` constructor itself (whose `fullName` field the
rest of the program never reads) is embedded separately as `NsNode`
below for the claims about it. -/

structure ProgState where
  nsPaths : List (List String)
  classes : List (StoreKey × Klass)
  warnings : List String
deriving DecidableEq, Repr

/-- The dotted path walked by `Namespace.for(name)`: the falsy empty name
means the root. -/
def nsPathOf (name : String) : List String :=
  if name = "" then [] else splitStr '.' name

/-- `Namespace.for(name)` without autocreate finds a node iff every node
along the chain exists (the root always does). -/
def nsChainExists (paths : List (List String)) (p : List String) : Bool :=
  (List.range p.length).all (fun i => paths.contains (p.take (i + 1)))

/-- `Namespace.for(name, {autocreate: true})`: insert every missing node
along the chain. -/
def addNsPrefixes (paths : List (List String)) (p : List String) : List (List String) :=
  (List.range p.length).foldl
    (fun acc i =>
      let q := p.take (i + 1)
      if acc.contains q then acc else acc ++ [q])
    paths

/-- `namespaceAndKlassName(fullName)`: split off the simple name, map the
owning namespace through the legacy alias table. -/
def namespaceAndKlassName (fullName : String) : String × String :=
  let parts := splitStr '.' fullName
  let namespaceName := joinSep "." (parts.dropLast)
  let namespaceName := (NAMESPACE_MAP.lookup namespaceName).getD namespaceName
  let klassName := (parts.getLastD "")
  (namespaceName, klassName)

/-- Errors that abort the run (JS `throw`), plus the fuel marker of the
embedding (unreachable at sufficient fuel, see `postProcess_guard_fuel`). -/
inductive Err where
  | fuel
  | noNamespace (name : String)
  | notAMethod (name : String) (itemType : Option String)
deriving DecidableEq, Repr

/-- `Klass.find(fullName, options)`: resolve the owning namespace without
autocreating; a missing namespace returns nothing when tolerated and
throws otherwise; then look the simple name up in that namespace's
`classes` map.  Returns the storage key of the found class. -/
def klassFind (st : ProgState) (fullName : String) (allowMissingNamespace : Bool) :
    Except Err (Option StoreKey) :=
  let names := namespaceAndKlassName fullName
  let nsPath := nsPathOf names.1
  if nsChainExists st.nsPaths nsPath then
    let key : StoreKey := (nsPath, names.2)
    .ok (if (alGet key st.classes).isSome then some key else none)
  else if allowMissingNamespace then .ok none
  else .error (.noNamespace fullName)

def getKlass (st : ProgState) (key : StoreKey) : Option Klass :=
  alGet key st.classes

def updateKlass (st : ProgState) (key : StoreKey) (f : Klass → Klass) : ProgState :=
  { st with classes := alUpdate key f st.classes }

/-- `console.warn`: append to the diagnostic channel. -/
def warn (st : ProgState) (msg : String) : ProgState :=
  { st with warnings := st.warnings ++ [msg] }

/-- `Klass.create(fullName, data)`: autocreate the owning namespace;
refuse (with a warning) when the simple name is already registered
there. -/
def klassCreate (st : ProgState) (fullName : String) (data : KlassData) :
    ProgState × Option StoreKey :=
  let names := namespaceAndKlassName fullName
  let nsPath := nsPathOf names.1
  let st := { st with nsPaths := addNsPrefixes st.nsPaths nsPath }
  let key : StoreKey := (nsPath, names.2)
  if (alGet key st.classes).isSome then
    (warn st ("Class already exists; name=" ++ fullName), none)
  else
    ({ st with classes := st.classes ++ [(key, Klass.new names.2 data)] }, some key)

/-- The class-lookup environment handed to `relativeName` /
`convertType`: `Klass.find` with a tolerated missing namespace, projected
to the found class's `fullName`. -/
def stateFindFullName (st : ProgState) : String → Option String :=
  fun n =>
    match klassFind st n true with
    | .ok (some key) => (alGet key st.classes).map (fun k => k.fullName)
    | _ => none

/-! ## Member construction -/

/-- The `ClassItemParam` constructor: a trailing star on the name or an
ellipsis inside the type marks a rest parameter (the ellipsis is removed
— first occurrence only, as JS `String.replace` with a plain string
does); the reserved name `arguments` is renamed. -/
def ClassItemParam.make (find : String → Option String) (baseFullName : String)
    (p : ParamData) : ClassItemParam :=
  let starred := p.name.toList.getLastD ' ' = '*'
  let nm := if starred then (p.name.toList.dropLast).asString else p.name
  let nm := if nm = "arguments" then "args" else nm
  let dotted :=
    match p.type with
    | some t => containsDots t.toList
    | none => false
  let rawType :=
    match p.type with
    | some t =>
      if containsDots t.toList then some ((replaceFirstDots t.toList).asString)
      else some t
    | none => none
  { name := nm
    rest := starred || dotted
    type :=
      match rawType with
      | some t => if t ≠ "" then convertType find t (some baseFullName) else "any"
      | none => "any" }

/-- `ClassItemParam.toString`: a rest parameter renders as a variadic
array of the first bar-listed type (the empty object type degrades to the
universal type). -/
def ClassItemParam.render (p : ClassItemParam) : String :=
  if p.rest then
    let t := ((splitStr '|' p.type).headD "")
    "..." ++ p.name ++ ": " ++ ((if t = "\x7b\x7d" then "any" else t) ++ "[]")
  else p.name ++ ": " ++ p.type

/-- The `ClassItem` constructor.  Throws when a non-method record carries
params.  `events` are treated as methods.  A static member literally
named `create` without a documented return type returns the owning
class's simple name. -/
def ClassItem.make (find : String → Option String) (ownerKey : StoreKey)
    (ownerFullName ownerName : String) (data : ItemData) : Except Err ClassItem := do
  let itemType := if data.itemtype = some "event" then some "method" else data.itemtype
  let params ←
    match data.params with
    | some ps =>
      if itemType ≠ some "method" then
        Except.error (.notAMethod (data.name.getD "") itemType)
      else
        pure (some (ps.map (ClassItemParam.make find ownerFullName)))
    | none => pure none
  Except.ok
    { data := data
      name := data.name.getD ""
      klass := ownerKey
      itemType := itemType
      type :=
        match data.type with
        | some t => if t ≠ "" then convertType find t (some ownerFullName) else "any"
        | none => "any"
      static := data.static
      description := data.description
      private_ := data.access = some "private"
      deprecated := data.deprecated
      deprecationMessage := data.deprecationMessage
      params := params
      returnType :=
        match data.ret with
        | some r =>
          some (match r.type with
            | some t => if t ≠ "" then convertType find t (some ownerFullName) else "void"
            | none => "void")
        | none =>
          if data.static ∧ data.name = some "create" then some ownerName else none }

/-- `new ClassItem(data, klass)` against the current global state: the
owner's `fullName`/`name` and the class-lookup environment are read from
the state at construction time. -/
def classItemMake (st : ProgState) (ownerKey : StoreKey) (data : ItemData) :
    Except Err ClassItem :=
  let ownerFullName := (((getKlass st ownerKey).map (fun k => k.fullName)).getD "")
  let ownerName := (((getKlass st ownerKey).map (fun k => k.name)).getD "")
  ClassItem.make (stateFindFullName st) ownerKey ownerFullName ownerName data

/-- `item.key`: the disambiguation key within a class's member map. -/
def ClassItem.key (i : ClassItem) : String :=
  (if i.static then "static:" else "") ++ i.name

/-- `this.data.uses.map(i => Klass.find(i))`: a strict find for each
mixin name in order, the first missing namespace throwing. -/
def klassFindAll (st : ProgState) : List String → Except Err (List (Option StoreKey))
  | [] => .ok []
  | u :: us =>
    match klassFind st u false with
    | .error e => .error e
    | .ok r =>
      match klassFindAll st us with
      | .error e => .error e
      | .ok rs => .ok (r :: rs)

/-! ## The resolution pass (`Klass.postProcess`)

JS recursion through the mutable object graph is embedded with explicit
recursion fuel; the guard flag is set before any recursive call, so each
class body runs at most once and `postProcess_guard_fuel` shows one unit
of fuel per not-yet-processed class suffices. -/

/-- The body of `k.items.forEach((i, name) => ...)` inside the
`implements` merge: copy each non-private mixin member the class does not
already define (attributed to the class); an existing private member
required by the mixin is forced public with a warning. -/
def copyItems : ProgState → StoreKey → List (String × ClassItem) → Except Err ProgState
  | st, _, [] => .ok st
  | st, key, (nm, i) :: rest =>
    if i.private_ then copyItems st key rest
    else
      match (getKlass st key).bind (fun k => alGet nm k.items) with
      | some existing =>
        if existing.private_ then
          let selfFull := (((getKlass st key).map (fun k => k.fullName)).getD "")
          let st := warn st ("Setting private to false for " ++ selfFull ++ "#" ++ nm
            ++ " since it's required for implementation")
          let st := updateKlass st key (fun k =>
            { k with items := alSet nm { existing with private_ := false } k.items })
          copyItems st key rest
        else copyItems st key rest
      | none =>
        match classItemMake st key i.data with
        | .error e => .error e
        | .ok item =>
          let st := updateKlass st key (fun k =>
            { k with items := alSet nm item k.items })
          copyItems st key rest

/-- The `this.implements.forEach(k => ...)` loop: strings are skipped;
each class reference is resolved first (through `pp`, the resolution
function at the current recursion depth), then its members merged. -/
def processImpls (pp : StoreKey → ProgState → Except Err ProgState) (key : StoreKey) :
    List ImplRef → ProgState → Except Err ProgState
  | [], st => .ok st
  | ImplRef.str _ :: rest, st => processImpls pp key rest st
  | ImplRef.kl pkey :: rest, st =>
    match pp pkey st with
    | .error e => .error e
    | .ok st =>
      match getKlass st pkey with
      | none => processImpls pp key rest st
      | some pk =>
        match copyItems st key pk.items with
        | .error e => .error e
        | .ok st => processImpls pp key rest st

/-- The `this.data.extends` block of `postProcess`: a resolving parent is
linked and recursively resolved (through `pp`), and its `static:create`
member — if any — synthesized on the child; an unresolved parent only
warns. -/
def ppExtends (pp : StoreKey → ProgState → Except Err ProgState) (key : StoreKey)
    (k0 : Klass) (st : ProgState) : Except Err ProgState :=
  if optTruthy k0.data.extends_ then
    match klassFind st (k0.data.extends_.getD "") false with
    | .error e => .error e
    | .ok none =>
      .ok (warn st ("Can't find extended class; child=" ++ k0.fullName
        ++ " parent=" ++ k0.data.extends_.getD ""))
    | .ok (some pkey) =>
      let st := updateKlass st key (fun k => { k with extendsKlass := some pkey })
      match pp pkey st with
      | .error e => .error e
      | .ok st =>
        match (getKlass st pkey).bind (fun pk => alGet "static:create" pk.items) with
        | some parentCreate =>
          match classItemMake st key parentCreate.data with
          | .error e => .error e
          | .ok item =>
            .ok (updateKlass st key (fun k =>
              { k with items := alSet "static:create" item k.items }))
        | none => .ok st
  else .ok st

/-- The `this.data.uses` block of `postProcess`: strict lookups (a missing
namespace throws); unresolved mixins are silently filtered out and
`implements` is only assigned when something resolved. -/
def ppUses (key : StoreKey) (k0 : Klass) (st : ProgState) : Except Err ProgState :=
  match k0.data.uses with
  | some us =>
    match klassFindAll st us with
    | .error e => .error e
    | .ok impls =>
      let impls := impls.filterMap id
      if impls.length > 0 then
        .ok (updateKlass st key (fun k =>
          { k with implements := some (impls.map ImplRef.kl) }))
      else .ok st
  | none => .ok st

/-- The `this.implements` merge of `postProcess`, over the current value
of the field. -/
def ppImplExec (pp : StoreKey → ProgState → Except Err ProgState) (key : StoreKey)
    (st : ProgState) : Except Err ProgState :=
  match (getKlass st key).bind (fun k => k.implements) with
  | none => .ok st
  | some irs => processImpls pp key irs st

/-- The two leading assignments of the `postProcess` body: the
re-entrancy guard flag, then
`this.isNamespace = !!Namespace.for(this.fullName)`. -/
def flagSet (paths : List (List String)) (k : Klass) : Klass :=
  { k with postProcessed := true,
           isNamespace := nsChainExists paths (nsPathOf k.fullName) }

/-- `Klass.postProcess()` for the class stored at `key`. -/
def postProcess : Nat → StoreKey → ProgState → Except Err ProgState
  | 0, _, _ => .error .fuel
  | Nat.succ fuel, key, st =>
    match alGet key st.classes with
    | none => .ok st
    | some k0 =>
      if k0.postProcessed then .ok st
      else
        -- guard flag first, then `this.isNamespace = !!Namespace.for(fullName)`
        let st1 := updateKlass st key (flagSet st.nsPaths)
        match ppExtends (postProcess fuel) key k0 st1 with
        | .error e => .error e
        | .ok st2 =>
          match ppUses key k0 st2 with
          | .error e => .error e
          | .ok st3 => ppImplExec (postProcess fuel) key st3

/-! ## The whole-program pipeline (`generate.js` main body) -/

/-- `docs`: the parsed JSON input. -/
structure Docs where
  classes : List (String × KlassData)
  classitems : List ItemData
deriving DecidableEq, Repr

/-- `ignoreItem(name)`: an excluded fully-qualified prefix. -/
def ignoreItem (name : String) : Bool :=
  IGNORE.any (fun i => name = i || takeStr name (i.length + 1) = i ++ ".")

/-- One iteration of the `docs.classitems.forEach` loop: find the owning
class (strict lookup: a missing namespace throws, an unknown class only
warns); records with a truthy name and a member itemtype are constructed
and attached — a duplicate key warns and is then overwritten anyway. -/
def loadClassItem (st : ProgState) (data : ItemData) : Except Err ProgState :=
  if ignoreItem data.clazz then .ok st
  else
    match klassFind st data.clazz false with
    | .error e => .error e
    | .ok none => .ok (warn st ("Klass not found for " ++ data.clazz))
    | .ok (some key) =>
      if optTruthy data.name = true ∧
          (data.itemtype = some "method" ∨ data.itemtype = some "property" ∨
            data.itemtype = some "event") then
        match classItemMake st key data with
        | .error e => .error e
        | .ok item =>
          let st :=
            if ((getKlass st key).bind (fun k => alGet item.key k.items)).isSome then
              warn st ("Duplicate item for klass; klass="
                ++ (((getKlass st key).map (fun k => k.fullName)).getD "")
                ++ ", item=" ++ item.key)
            else st
          .ok (updateKlass st key (fun k => { k with items := alSet item.key item k.items }))
      else .ok st

def initState : ProgState := { nsPaths := [], classes := [], warnings := [] }

/-- The `for (let name in docs.classes)` registration loop. -/
def loadClasses (docs : Docs) : ProgState × List StoreKey :=
  docs.classes.foldl
    (fun acc entry =>
      if ignoreItem entry.1 then acc
      else
        match klassCreate acc.1 entry.1 entry.2 with
        | (st, some key) => (st, acc.2 ++ [key])
        | (st, none) => (st, acc.2))
    (initState, [])

/-- The `ADDITIONAL_CLASSES.forEach` loop: synthesize well-known ambient
classes with no member data. -/
def loadAdditional (acc : ProgState × List StoreKey) : ProgState × List StoreKey :=
  ADDITIONAL_CLASSES.foldl
    (fun acc klassName =>
      match klassCreate acc.1 klassName { name := klassName } with
      | (st, some key) => (st, acc.2 ++ [key])
      | (st, none) => (st, acc.2))
    acc

/-- The full load-and-resolve pipeline: register classes, attach member
records, add the ambient classes, then `classes.forEach(k =>
k.postProcess())` (each call at fuel one beyond the class count, enough
by `postProcess_guard_fuel`). -/
def runProgram (docs : Docs) : Except Err ProgState := do
  let acc := loadClasses docs
  let st ← docs.classitems.foldlM (fun st data => loadClassItem st data) acc.1
  let acc := loadAdditional (st, acc.2)
  acc.2.foldlM (fun st key => postProcess (st.classes.length + 1) key st) acc.1

/-! ## The declaration builder (`ClassItem.buildDeclaration`) -/

/-- `/^[$A-Z_][0-9A-Z_$]*$/i`. -/
def identOk (s : String) : Bool :=
  match s.toList with
  | [] => false
  | c :: cs =>
    (c = '$' || c = '_' || c.isAlpha) &&
      cs.all (fun x => x.isDigit || x = '$' || x = '_' || x.isAlpha)

/-- `buildDeclaration(skipRest)`: the owner's current `isNamespace` /
`isTrueClass` are passed in (the JS code reads them through
`this.klass`).  Without `skipRest` the parameter list is truncated
immediately after the first rest parameter; with it, exactly the rest
parameters are filtered out (parameters after them are kept). -/
def ClassItem.buildDeclaration (ownerIsNamespace ownerIsTrueClass : Bool)
    (i : ClassItem) (skipRest : Bool) : String :=
  let str :=
    if ownerIsNamespace && !ownerIsTrueClass then
      if i.itemType = some "method" then "function " else "var "
    else if i.static then "static " else ""
  let str := str ++ (if identOk i.name then i.name else "'" ++ i.name ++ "'")
  if i.itemType = some "method" then
    let params := i.params.getD []
    let params :=
      if skipRest then params.filter (fun p => !p.rest)
      else
        match params.findIdx? (fun p => p.rest) with
        | some idx => params.take (idx + 1)
        | none => params
    let str := str ++ "(" ++ joinSep ", " (params.map ClassItemParam.render) ++ ")"
    match i.returnType with
    | some rt => str ++ ": " ++ rt
    | none => str
  else str ++ ": " ++ i.type

/-- `get declarations()`: one declaration normally; a second, rest-free
one when a rest parameter exists that is not last. -/
def ClassItem.declarations (ownerIsNamespace ownerIsTrueClass : Bool)
    (i : ClassItem) : List String :=
  let lines := [i.buildDeclaration ownerIsNamespace ownerIsTrueClass false]
  match i.params with
  | none => lines
  | some ps =>
    match ps.findIdx? (fun p => p.rest) with
    | none => lines
    | some idx =>
      if idx ≠ ps.length - 1 then
        lines ++ [i.buildDeclaration ownerIsNamespace ownerIsTrueClass true]
      else lines

/-! ## The `Namespace` node objects themselves

The registry above only needs existence of namespace paths; the
`Namespace` constructor additionally computes a `fullName` field (which
no other part of the program reads).  `NsNode` embeds the node objects
with that field, and `nsCreatePath` the autocreating walk of
`Namespace.for`. -/

/-- A `Namespace` object: `root`/`name` per the constructor, `fullName`
as computed there, and the `namespaces` child map. -/
inductive NsNode where
  | mk : Bool → Option String → Option String → List (String × NsNode) → NsNode

def NsNode.rootFlag : NsNode → Bool | .mk r _ _ _ => r
def NsNode.name : NsNode → Option String | .mk _ n _ _ => n
def NsNode.fullName : NsNode → Option String | .mk _ _ f _ => f
def NsNode.namespaces : NsNode → List (String × NsNode) | .mk _ _ _ cs => cs

/-- `new Namespace(name, parent)` for a named child: `fullName` is the
JS `[name, parent.name].join(".")` — `join` renders the root's absent
name as the empty string. -/
def NsNode.newChild (name : String) (parent : NsNode) : NsNode :=
  .mk false (some name) (some (name ++ "." ++ (parent.name.getD ""))) []

/-- `new Namespace()` — the root. -/
def NsNode.rootNode : NsNode := .mk true none none []

def NsNode.setChild (p : NsNode) (n : String) (c : NsNode) : NsNode :=
  match p with
  | .mk r nm f cs => .mk r nm f (alSet n c cs)

/-- The `parts.forEach` walk of `Namespace.for(name, {autocreate:
true})`: at each segment a missing child is constructed and inserted. -/
def nsCreatePath : NsNode → List String → NsNode
  | parent, [] => parent
  | parent, n :: rest =>
    let parent :=
      if (alGet n parent.namespaces).isSome then parent
      else parent.setChild n (NsNode.newChild n parent)
    match alGet n parent.namespaces with
    | some child => parent.setChild n (nsCreatePath child rest)
    | none => parent

/-- The same walk without autocreate, as a lookup. -/
def nsGetPath : NsNode → List String → Option NsNode
  | node, [] => some node
  | node, n :: rest => (alGet n node.namespaces).bind (fun c => nsGetPath c rest)

/-! ## Invariant predicates for the resolution pass -/

/-- Entries already flagged `postProcessed` at the start of a resolution
call are frozen: `postProcess` never touches a class whose body already
ran, because the flag is checked before the body and set before any
recursive call. -/
def Evol (a b : ProgState) : Prop :=
  b.nsPaths = a.nsPaths ∧
    List.Forall₂
      (fun (x y : StoreKey × Klass) => x.1 = y.1 ∧ (x.2.postProcessed = true → y = x))
      a.classes b.classes

/-- The `postProcessed` flags only ever go from unset to set. -/
def FlagsMono (a b : ProgState) : Prop :=
  b.nsPaths = a.nsPaths ∧
    List.Forall₂
      (fun (x y : StoreKey × Klass) =>
        x.1 = y.1 ∧ (x.2.postProcessed = true → y.2.postProcessed = true))
      a.classes b.classes

/-- The class at `key`, when registered, is not yet resolved. -/
def KeyFree (a : ProgState) (key : StoreKey) : Prop :=
  ∀ v, alGet key a.classes = some v → v.postProcessed = false

/-- The class at `key`, when registered, ends up flagged resolved. -/
def KeyFlagged (key : StoreKey) (a b : ProgState) : Prop :=
  ∀ v, alGet key a.classes = some v →
    ∃ v', alGet key b.classes = some v' ∧ v'.postProcessed = true

/-- The state reached part-way through the body of `postProcess key st`:
frozen entries of `st` untouched, flags monotone from `st`, and `key`
(when registered in `st`) already flagged. -/
def MidBody (key : StoreKey) (st b : ProgState) : Prop :=
  Evol st b ∧ FlagsMono st b ∧ KeyFlagged key st b

/-- The number of classes whose body has not yet run — the bound on the
recursion depth of the resolution pass. -/
def unproc (st : ProgState) : Nat :=
  st.classes.countP (fun e => !e.2.postProcessed)

/-! ## Concrete documentation sets for the claims -/

/-- A parent with a public property that the child does not define. -/
def c1Docs : Docs :=
  { classes := [("P", { name := "P" }), ("C", { name := "C", extends_ := some "P" })]
    classitems :=
      [{ clazz := "P", name := some "foo", itemtype := some "property",
         type := some "String" }] }

/-- Two member records with the same key on the same class. -/
def c2Docs : Docs :=
  { classes := [("Foo", { name := "Foo" })]
    classitems :=
      [ { clazz := "Foo", name := some "bar", itemtype := some "property",
          type := some "String" },
        { clazz := "Foo", name := some "bar", itemtype := some "property",
          type := some "Number" } ] }

/-- A two-class `extends` cycle. -/
def cycDocs : Docs :=
  { classes :=
      [ ("A", { name := "A", extends_ := some "B" }),
        ("B", { name := "B", extends_ := some "A" }) ]
    classitems := [] }

/-- A three-class `extends` cycle. -/
def cyc3Docs : Docs :=
  { classes :=
      [ ("X", { name := "X", extends_ := some "Y" }),
        ("Y", { name := "Y", extends_ := some "Z" }),
        ("Z", { name := "Z", extends_ := some "X" }) ]
    classitems := [] }

/-- A class with one unresolvable mixin (whose namespace — the root —
exists). -/
def c4Docs : Docs :=
  { classes := [("Foo", { name := "Foo", uses := some ["Missing"] })], classitems := [] }

/-- A class with one resolvable and one unresolvable mixin. -/
def c4bDocs : Docs :=
  { classes :=
      [ ("M", { name := "M" }),
        ("Foo", { name := "Foo", uses := some ["M", "Missing"] }) ]
    classitems := [] }

/-- A class whose mixin name names a namespace that does not exist. -/
def c4cDocs : Docs :=
  { classes := [("Foo", { name := "Foo", uses := some ["No.Such.Ns.X"] })]
    classitems := [] }

/-- A method record with params `[a, b*, c]`: the rest parameter is in
the middle. -/
def c3data : ItemData :=
  { clazz := "Foo", name := some "f", itemtype := some "method"
    params := some
      [ { name := "a", type := some "Number" },
        { name := "b*", type := some "String" },
        { name := "c", type := some "Boolean" } ] }

def c3key : StoreKey := ([], "Foo")

/-! ## Concrete states for the witnesses -/

/-- A single freshly registered class `A`. -/
def c7pre : ProgState := (klassCreate initState "A" { name := "A" }).1

def c7key : StoreKey := ([], "A")

def c7out : ProgState := ((postProcess 2 c7key c7pre).toOption).getD c7pre

/-- The `static:create` member record of the witness parent. -/
def c1wCreateData : ItemData :=
  { clazz := "P", name := some "create", itemtype := some "method", static := true }

/-- A fallback member (never reached by the witnesses). -/
def dummyItem : ClassItem :=
  { data := {}, name := "", klass := ([], ""), itemType := none, type := "any",
    static := false, description := none, private_ := false, deprecated := false,
    deprecationMessage := none, params := none, returnType := none }

def c1wPc : ClassItem :=
  ((ClassItem.make (fun _ => none) ([], "P") "P" "P" c1wCreateData).toOption).getD dummyItem

/-- Witness state for the `extends` copy: `P` already resolved and owning
a public `static:create` member plus a public `other` member, `C`
unresolved extending `P`. -/
def c1wSt : ProgState :=
  let st := (klassCreate initState "P" { name := "P" }).1
  let st := (klassCreate st "C" { name := "C", extends_ := some "P" }).1
  updateKlass st ([], "P") (fun k =>
    { k with postProcessed := true,
             items := [("static:create", c1wPc),
                       ("other", { c1wPc with name := "other", static := false })] })

def c1wKey : StoreKey := ([], "C")

def c1wK0 : Klass := ((getKlass c1wSt c1wKey).getD (Klass.new "C" { name := "C" }))

def c1wPk : Klass := ((getKlass c1wSt ([], "P")).getD (Klass.new "P" { name := "P" }))

def c1wOut : ProgState := ((postProcess 2 c1wKey c1wSt).toOption).getD c1wSt

/-- Witness state for the duplicate-member overwrite: `Foo` registered
with the first `bar` member already attached. -/
def c2wSt : ProgState :=
  ((loadClassItem (klassCreate initState "Foo" { name := "Foo" }).1
    { clazz := "Foo", name := some "bar", itemtype := some "property",
      type := some "String" }).toOption).getD initState

/-- The second, conflicting `bar` record. -/
def c2wData : ItemData :=
  { clazz := "Foo", name := some "bar", itemtype := some "property",
    type := some "Number" }

def c2wKey : StoreKey := ([], "Foo")

def c2wItem : ClassItem :=
  ((classItemMake c2wSt c2wKey c2wData).toOption).getD dummyItem

def c2wOld : ClassItem :=
  (((getKlass c2wSt c2wKey).bind (fun k => alGet "bar" k.items)).getD dummyItem)

/-- The method member built from `c3data` (rest parameter not last). -/
def c3item : ClassItem :=
  ((ClassItem.make (fun _ => none) c3key "Foo" "Foo" c3data).toOption).getD dummyItem

/-- The parameter list of `c3item`. -/
def c3params : List ClassItemParam :=
  [ { name := "a", rest := false, type := "number" },
    { name := "b", rest := true, type := "string" },
    { name := "c", rest := false, type := "boolean" } ]


/-! # Theorems

Everything below is proved about the definitions above; no further
definitions follow. -/

theorem alGet_alSet_self {α β : Type} [DecidableEq α] (k : α) (v : β) (l : List (α × β)) :
    alGet k (alSet k v l) = some v := by
  induction l with
  | nil => simp [alGet, alSet]
  | cons h t ih =>
    obtain ⟨k', v'⟩ := h
    by_cases hk : k' = k <;> simp [alGet, alSet, hk, ih]

theorem alGet_alSet_ne {α β : Type} [DecidableEq α] (k k₀ : α) (v : β) (l : List (α × β))
    (h : k ≠ k₀) : alGet k (alSet k₀ v l) = alGet k l := by
  induction l with
  | nil => simp [alGet, alSet, Ne.symm h]
  | cons hd t ih =>
    obtain ⟨k', v'⟩ := hd
    by_cases hk : k' = k₀ <;> by_cases hk' : k' = k <;>
      simp_all [alGet, alSet]

theorem alGet_alUpdate_self {α β : Type} [DecidableEq α] (k : α) (f : β → β)
    (l : List (α × β)) : alGet k (alUpdate k f l) = (alGet k l).map f := by
  induction l with
  | nil => simp [alGet, alUpdate]
  | cons hd t ih =>
    obtain ⟨k', v'⟩ := hd
    by_cases hk : k' = k <;> simp [alGet, alUpdate, hk, ih]

theorem alGet_alUpdate_ne {α β : Type} [DecidableEq α] (k k₀ : α) (f : β → β)
    (l : List (α × β)) (h : k ≠ k₀) : alGet k (alUpdate k₀ f l) = alGet k l := by
  induction l with
  | nil => simp [alGet, alUpdate]
  | cons hd t ih =>
    obtain ⟨k', v'⟩ := hd
    by_cases hk : k' = k₀ <;> by_cases hk' : k' = k <;>
      simp_all [alGet, alUpdate]

theorem alUpdate_absent {α β : Type} [DecidableEq α] (k : α) (f : β → β)
    (l : List (α × β)) (h : alGet k l = none) : alUpdate k f l = l := by
  induction l with
  | nil => rfl
  | cons hd t ih =>
    obtain ⟨k', v'⟩ := hd
    by_cases hk : k' = k
    · simp [alGet, hk] at h
    · simp [alGet, hk] at h
      simp [alUpdate, hk, ih h]

theorem alGet_isSome_alUpdate {α β : Type} [DecidableEq α] (k k₀ : α) (f : β → β)
    (l : List (α × β)) : (alGet k (alUpdate k₀ f l)).isSome = (alGet k l).isSome := by
  by_cases hk : k = k₀
  · subst hk; rw [alGet_alUpdate_self]; cases alGet k l <;> rfl
  · rw [alGet_alUpdate_ne _ _ _ _ hk]

@[simp] theorem warn_classes (st : ProgState) (m : String) : (warn st m).classes = st.classes := rfl
@[simp] theorem warn_nsPaths (st : ProgState) (m : String) : (warn st m).nsPaths = st.nsPaths := rfl
@[simp] theorem updateKlass_classes (st : ProgState) (key : StoreKey) (f : Klass → Klass) :
    (updateKlass st key f).classes = alUpdate key f st.classes := rfl
@[simp] theorem updateKlass_nsPaths (st : ProgState) (key : StoreKey) (f : Klass → Klass) :
    (updateKlass st key f).nsPaths = st.nsPaths := rfl
@[simp] theorem updateKlass_warnings (st : ProgState) (key : StoreKey) (f : Klass → Klass) :
    (updateKlass st key f).warnings = st.warnings := rfl

theorem klassFind_update (st : ProgState) (key : StoreKey) (f : Klass → Klass)
    (n : String) (b : Bool) : klassFind (updateKlass st key f) n b = klassFind st n b := by
  simp [klassFind, alGet_isSome_alUpdate]

theorem klassFind_warn (st : ProgState) (m n : String) (b : Bool) :
    klassFind (warn st m) n b = klassFind st n b := rfl

theorem evol_refl (a : ProgState) : Evol a a := by
  refine ⟨rfl, ?_⟩
  exact List.forall₂_same.mpr (fun x _ => ⟨rfl, fun _ => rfl⟩)

theorem fm_refl (a : ProgState) : FlagsMono a a := by
  refine ⟨rfl, ?_⟩
  exact List.forall₂_same.mpr (fun x _ => ⟨rfl, fun h => h⟩)

theorem forall2_evol_trans :
    ∀ {la lb lc : List (StoreKey × Klass)},
      List.Forall₂ (fun x y => x.1 = y.1 ∧ (x.2.postProcessed = true → y = x)) la lb →
      List.Forall₂ (fun x y => x.1 = y.1 ∧ (x.2.postProcessed = true → y = x)) lb lc →
      List.Forall₂ (fun x y => x.1 = y.1 ∧ (x.2.postProcessed = true → y = x)) la lc := by
  intro la lb lc h₁ h₂
  induction h₁ generalizing lc with
  | nil => cases h₂; exact List.Forall₂.nil
  | cons hxy _ ih =>
    cases h₂ with
    | cons hyz h₂' =>
      refine List.Forall₂.cons ⟨hxy.1.trans hyz.1, fun hf => ?_⟩ (ih h₂')
      have h1 := hxy.2 hf
      have h2 := hyz.2 (by rw [h1]; exact hf)
      rw [h2, h1]

theorem evol_trans {a b c : ProgState} (h₁ : Evol a b) (h₂ : Evol b c) : Evol a c :=
  ⟨h₂.1.trans h₁.1, forall2_evol_trans h₁.2 h₂.2⟩

theorem forall2_fm_trans :
    ∀ {la lb lc : List (StoreKey × Klass)},
      List.Forall₂ (fun x y => x.1 = y.1 ∧ (x.2.postProcessed = true → y.2.postProcessed = true)) la lb →
      List.Forall₂ (fun x y => x.1 = y.1 ∧ (x.2.postProcessed = true → y.2.postProcessed = true)) lb lc →
      List.Forall₂ (fun x y => x.1 = y.1 ∧ (x.2.postProcessed = true → y.2.postProcessed = true)) la lc := by
  intro la lb lc h₁ h₂
  induction h₁ generalizing lc with
  | nil => cases h₂; exact List.Forall₂.nil
  | cons hxy _ ih =>
    cases h₂ with
    | cons hyz h₂' =>
      exact List.Forall₂.cons ⟨hxy.1.trans hyz.1, fun hf => hyz.2 (hxy.2 hf)⟩ (ih h₂')

theorem fm_trans {a b c : ProgState} (h₁ : FlagsMono a b) (h₂ : FlagsMono b c) : FlagsMono a c :=
  ⟨h₂.1.trans h₁.1, forall2_fm_trans h₁.2 h₂.2⟩

theorem evol_to_fm {a b : ProgState} (h : Evol a b) : FlagsMono a b := by
  refine ⟨h.1, ?_⟩
  exact List.Forall₂.imp
    (fun x y hxy => ⟨hxy.1, fun hf => by rw [hxy.2 hf]; exact hf⟩) h.2

theorem forall2_evol_update (key : StoreKey) (f : Klass → Klass) :
    ∀ {la lb : List (StoreKey × Klass)},
      List.Forall₂ (fun x y => x.1 = y.1 ∧ (x.2.postProcessed = true → y = x)) la lb →
      (∀ v, alGet key la = some v → v.postProcessed = false) →
      List.Forall₂ (fun x y => x.1 = y.1 ∧ (x.2.postProcessed = true → y = x)) la
        (alUpdate key f lb) := by
  intro la lb h hfree
  induction h with
  | nil => exact List.Forall₂.nil
  | @cons x y la' lb' hxy h' ih =>
    obtain ⟨x1, x2⟩ := x
    obtain ⟨y1, y2⟩ := y
    simp only at hxy
    by_cases hk : y1 = key
    · have hx1 : x1 = key := hxy.1.trans hk
      rw [alUpdate, if_pos hk]
      refine List.Forall₂.cons ⟨hxy.1, fun hflag => ?_⟩ h'
      exact absurd (hfree x2 (by rw [alGet, if_pos hx1])) (by simpa using hflag)
    · rw [alUpdate, if_neg hk]
      refine List.Forall₂.cons hxy (ih ?_)
      intro v hv
      have hx1 : ¬ x1 = key := fun hh => hk (hxy.1 ▸ hh)
      exact hfree v (by rw [alGet, if_neg hx1]; exact hv)

theorem evol_update {a b : ProgState} {key : StoreKey} (f : Klass → Klass)
    (h : Evol a b) (hfree : KeyFree a key) : Evol a (updateKlass b key f) :=
  ⟨by simp [h.1], forall2_evol_update key f h.2 hfree⟩

theorem forall2_fm_update (key : StoreKey) (f : Klass → Klass)
    (hf : ∀ k, k.postProcessed = true → (f k).postProcessed = true) :
    ∀ {la lb : List (StoreKey × Klass)},
      List.Forall₂ (fun x y => x.1 = y.1 ∧ (x.2.postProcessed = true → y.2.postProcessed = true)) la lb →
      List.Forall₂ (fun x y => x.1 = y.1 ∧ (x.2.postProcessed = true → y.2.postProcessed = true)) la
        (alUpdate key f lb) := by
  intro la lb h
  induction h with
  | nil => exact List.Forall₂.nil
  | @cons x y la' lb' hxy h' ih =>
    obtain ⟨x1, x2⟩ := x
    obtain ⟨y1, y2⟩ := y
    simp only at hxy
    by_cases hk : y1 = key
    · rw [alUpdate, if_pos hk]
      exact List.Forall₂.cons ⟨hxy.1, fun hflag => hf _ (hxy.2 hflag)⟩ h'
    · rw [alUpdate, if_neg hk]
      exact List.Forall₂.cons hxy ih

theorem fm_update {a b : ProgState} {key : StoreKey} (f : Klass → Klass)
    (h : FlagsMono a b) (hf : ∀ k, k.postProcessed = true → (f k).postProcessed = true) :
    FlagsMono a (updateKlass b key f) :=
  ⟨by simp [h.1], forall2_fm_update key f hf h.2⟩

theorem forall2_fm_alGet (key : StoreKey) :
    ∀ {la lb : List (StoreKey × Klass)},
      List.Forall₂ (fun x y => x.1 = y.1 ∧ (x.2.postProcessed = true → y.2.postProcessed = true)) la lb →
      ∀ v, alGet key la = some v → v.postProcessed = true →
        ∃ v', alGet key lb = some v' ∧ v'.postProcessed = true := by
  intro la lb h
  induction h with
  | nil => intro v hv; simp [alGet] at hv
  | @cons x y la' lb' hxy h' ih =>
    obtain ⟨x1, x2⟩ := x
    obtain ⟨y1, y2⟩ := y
    simp only at hxy
    intro v hv hflag
    by_cases hk : x1 = key
    · rw [alGet, if_pos hk] at hv
      obtain rfl : x2 = v := Option.some.inj hv
      exact ⟨y2, by rw [alGet, if_pos (hxy.1 ▸ hk)], hxy.2 hflag⟩
    · rw [alGet, if_neg hk] at hv
      obtain ⟨v', hv', hflag'⟩ := ih v hv hflag
      exact ⟨v', by rw [alGet, if_neg (fun hh => hk (hxy.1 ▸ hh))]; exact hv', hflag'⟩

theorem fm_keyFlagged {a b : ProgState} {key : StoreKey} (h : FlagsMono a b)
    (hk : ∀ v, alGet key a.classes = some v → v.postProcessed = true) :
    KeyFlagged key a b := by
  intro v hv
  exact forall2_fm_alGet key h.2 v hv (hk v hv)

theorem keyFlagged_fm_compose {key : StoreKey} {a b c : ProgState}
    (h₁ : KeyFlagged key a b) (h₂ : FlagsMono b c) : KeyFlagged key a c := by
  intro v hv
  obtain ⟨v', hv', hflag'⟩ := h₁ v hv
  exact forall2_fm_alGet key h₂.2 v' hv' hflag'

theorem keyFlagged_update {key key₂ : StoreKey} {a b : ProgState} (f : Klass → Klass)
    (h : KeyFlagged key a b)
    (hf : ∀ k, k.postProcessed = true → (f k).postProcessed = true) :
    KeyFlagged key a (updateKlass b key₂ f) := by
  intro v hv
  obtain ⟨v', hv', hflag'⟩ := h v hv
  by_cases hk : key = key₂
  · subst hk
    refine ⟨f v', ?_, hf _ hflag'⟩
    simp [updateKlass, alGet_alUpdate_self, hv']
  · exact ⟨v', by simp [updateKlass, alGet_alUpdate_ne _ _ _ _ hk, hv'], hflag'⟩

theorem midBody_update {key : StoreKey} {st b : ProgState} (f : Klass → Klass)
    (h : MidBody key st b) (hfree : KeyFree st key)
    (hf : ∀ k, k.postProcessed = true → (f k).postProcessed = true) :
    MidBody key st (updateKlass b key f) :=
  ⟨evol_update f h.1 hfree, fm_update f h.2.1 hf, keyFlagged_update f h.2.2 hf⟩

theorem midBody_warn {key : StoreKey} {st b : ProgState} (m : String)
    (h : MidBody key st b) : MidBody key st (warn b m) := by
  obtain ⟨⟨e1, e2⟩, ⟨f1, f2⟩, kf⟩ := h
  exact ⟨⟨e1, e2⟩, ⟨f1, f2⟩, fun v hv => kf v hv⟩

theorem midBody_compose {key : StoreKey} {st b c : ProgState}
    (h : MidBody key st b) (he : Evol b c) (hf : FlagsMono b c) :
    MidBody key st c :=
  ⟨evol_trans h.1 he, fm_trans h.2.1 hf, keyFlagged_fm_compose h.2.2 hf⟩

theorem classItemMake_ok (st : ProgState) (ownerKey : StoreKey) (data : ItemData)
    (item : ClassItem) (h : classItemMake st ownerKey data = .ok item) :
    item.klass = ownerKey := by
  unfold classItemMake ClassItem.make at h
  cases hp : data.params with
  | none =>
    simp [hp, bind, Except.bind, pure, Except.pure] at h
    rw [← h]
  | some ps =>
    simp [hp, bind, Except.bind, pure, Except.pure] at h
    split at h
    · cases h
    · obtain rfl := Except.ok.inj h
      rfl

theorem classItemMake_error (st : ProgState) (ownerKey : StoreKey) (data : ItemData)
    (e : Err) (h : classItemMake st ownerKey data = .error e) : e ≠ .fuel := by
  unfold classItemMake ClassItem.make at h
  cases hp : data.params with
  | none =>
    simp [hp, bind, Except.bind, pure, Except.pure] at h
  | some ps =>
    simp [hp, bind, Except.bind, pure, Except.pure] at h
    split at h
    · obtain rfl := Except.error.inj h
      intro hh
      cases hh
    · cases h

theorem klassFind_error (st : ProgState) (n : String) (b : Bool) (e : Err)
    (h : klassFind st n b = .error e) : e ≠ .fuel := by
  unfold klassFind at h
  by_cases h1 : nsChainExists st.nsPaths (nsPathOf (namespaceAndKlassName n).1) = true
  · simp only [h1, if_true] at h
    cases h
  · simp only [h1, Bool.false_eq_true, if_false] at h
    by_cases hb : b = true
    · simp only [hb, if_true] at h
      cases h
    · simp only [hb, Bool.false_eq_true, if_false] at h
      obtain rfl := Except.error.inj h
      intro hh
      cases hh

theorem klassFindAll_error (st : ProgState) :
    ∀ (us : List String) (e : Err), klassFindAll st us = .error e → e ≠ .fuel := by
  intro us
  induction us with
  | nil => intro e h; simp [klassFindAll] at h
  | cons u us ih =>
    intro e h
    rw [klassFindAll] at h
    cases hf : klassFind st u false with
    | error e' =>
      rw [hf] at h
      cases h
      exact klassFind_error st u false _ hf
    | ok r =>
      rw [hf] at h
      cases hall : klassFindAll st us with
      | error e' =>
        rw [hall] at h
        cases h
        exact ih _ hall
      | ok rs => rw [hall] at h; cases h

theorem copyItems_mid {st₀ : ProgState} {key : StoreKey} (hfree : KeyFree st₀ key) :
    ∀ (l : List (String × ClassItem)) (b c : ProgState),
      MidBody key st₀ b → copyItems b key l = .ok c → MidBody key st₀ c := by
  intro l
  induction l with
  | nil =>
    intro b c hm h
    rw [copyItems] at h
    cases h
    exact hm
  | cons hd rest ih =>
    intro b c hm h
    obtain ⟨nm, i⟩ := hd
    rw [copyItems] at h
    by_cases hp : i.private_ = true
    · rw [if_pos hp] at h
      exact ih b c hm h
    · rw [if_neg hp] at h
      cases hex : (getKlass b key).bind (fun k => alGet nm k.items) with
      | some existing =>
        simp only [hex] at h
        by_cases hep : existing.private_ = true
        · rw [if_pos hep] at h
          refine ih _ c ?_ h
          exact midBody_update _ (midBody_warn _ hm) hfree (fun k hk => hk)
        · rw [if_neg hep] at h
          exact ih b c hm h
      | none =>
        simp only [hex] at h
        cases hmk : classItemMake b key i.data with
        | error e => simp only [hmk] at h; cases h
        | ok item =>
          simp only [hmk] at h
          refine ih _ c ?_ h
          exact midBody_update _ hm hfree (fun k hk => hk)

theorem copyItems_fm :
    ∀ (l : List (String × ClassItem)) (key : StoreKey) (b c : ProgState),
      copyItems b key l = .ok c → FlagsMono b c := by
  intro l
  induction l with
  | nil =>
    intro key b c h
    rw [copyItems] at h
    cases h
    exact fm_refl _
  | cons hd rest ih =>
    intro key b c h
    obtain ⟨nm, i⟩ := hd
    rw [copyItems] at h
    by_cases hp : i.private_ = true
    · rw [if_pos hp] at h
      exact ih key b c h
    · rw [if_neg hp] at h
      cases hex : (getKlass b key).bind (fun k => alGet nm k.items) with
      | some existing =>
        simp only [hex] at h
        by_cases hep : existing.private_ = true
        · rw [if_pos hep] at h
          have h2 := ih key _ c h
          refine fm_trans ?_ h2
          exact fm_update _ (fm_refl _) (fun k hk => hk)
        · rw [if_neg hep] at h
          exact ih key b c h
      | none =>
        simp only [hex] at h
        cases hmk : classItemMake b key i.data with
        | error e => simp only [hmk] at h; cases h
        | ok item =>
          simp only [hmk] at h
          have h2 := ih key _ c h
          refine fm_trans ?_ h2
          exact fm_update _ (fm_refl _) (fun k hk => hk)

theorem copyItems_error :
    ∀ (l : List (String × ClassItem)) (key : StoreKey) (b : ProgState) (e : Err),
      copyItems b key l = .error e → e ≠ .fuel := by
  intro l
  induction l with
  | nil =>
    intro key b e h
    rw [copyItems] at h
    cases h
  | cons hd rest ih =>
    intro key b e h
    obtain ⟨nm, i⟩ := hd
    rw [copyItems] at h
    by_cases hp : i.private_ = true
    · rw [if_pos hp] at h
      exact ih key b e h
    · rw [if_neg hp] at h
      cases hex : (getKlass b key).bind (fun k => alGet nm k.items) with
      | some existing =>
        simp only [hex] at h
        by_cases hep : existing.private_ = true
        · rw [if_pos hep] at h
          exact ih key _ e h
        · rw [if_neg hep] at h
          exact ih key b e h
      | none =>
        simp only [hex] at h
        cases hmk : classItemMake b key i.data with
        | error e' =>
          simp only [hmk] at h
          obtain rfl := Except.error.inj h
          exact classItemMake_error b key i.data e' hmk
        | ok item =>
          simp only [hmk] at h
          exact ih key _ e h

theorem processImpls_mid {fuel : Nat}
    (hpp : ∀ k s s', postProcess fuel k s = .ok s' → Evol s s' ∧ FlagsMono s s')
    {st₀ : ProgState} {key : StoreKey} (hfree : KeyFree st₀ key) :
    ∀ (irs : List ImplRef) (b c : ProgState),
      MidBody key st₀ b → processImpls (postProcess fuel) key irs b = .ok c →
      MidBody key st₀ c := by
  intro irs
  induction irs with
  | nil =>
    intro b c hm h
    rw [processImpls] at h
    cases h
    exact hm
  | cons ir rest ih =>
    intro b c hm h
    cases ir with
    | str s =>
      rw [processImpls] at h
      exact ih b c hm h
    | kl pkey =>
      rw [processImpls] at h
      cases hppk : postProcess fuel pkey b with
      | error e => simp only [hppk] at h; cases h
      | ok b2 =>
        simp only [hppk] at h
        have hev := hpp pkey b b2 hppk
        have hm2 : MidBody key st₀ b2 := midBody_compose hm hev.1 hev.2
        cases hg : getKlass b2 pkey with
        | none => simp only [hg] at h; exact ih b2 c hm2 h
        | some pk =>
          simp only [hg] at h
          cases hcp : copyItems b2 key pk.items with
          | error e => simp only [hcp] at h; cases h
          | ok b3 =>
            simp only [hcp] at h
            exact ih b3 c (copyItems_mid hfree pk.items b2 b3 hm2 hcp) h

theorem ppExtends_mid {fuel : Nat}
    (hpp : ∀ k s s', postProcess fuel k s = .ok s' → Evol s s' ∧ FlagsMono s s')
    {st₀ : ProgState} {key : StoreKey} (hfree : KeyFree st₀ key) (k0 : Klass)
    (b c : ProgState) (hm : MidBody key st₀ b)
    (h : ppExtends (postProcess fuel) key k0 b = .ok c) : MidBody key st₀ c := by
  unfold ppExtends at h
  by_cases he : optTruthy k0.data.extends_ = true
  · rw [if_pos he] at h
    cases hf : klassFind b (k0.data.extends_.getD "") false with
    | error e => simp only [hf] at h; cases h
    | ok r =>
      cases r with
      | none =>
        simp only [hf] at h
        cases h
        exact midBody_warn _ hm
      | some pkey =>
        simp only [hf] at h
        have hm1 : MidBody key st₀
            (updateKlass b key (fun k => { k with extendsKlass := some pkey })) :=
          midBody_update _ hm hfree (fun k hk => hk)
        cases hrec : postProcess fuel pkey
            (updateKlass b key (fun k => { k with extendsKlass := some pkey })) with
        | error e => simp only [hrec] at h; cases h
        | ok b2 =>
          simp only [hrec] at h
          have hev := hpp _ _ _ hrec
          have hm2 : MidBody key st₀ b2 := midBody_compose hm1 hev.1 hev.2
          cases hsc : (getKlass b2 pkey).bind (fun pk => alGet "static:create" pk.items) with
          | none =>
            simp only [hsc] at h
            cases h
            exact hm2
          | some pc =>
            simp only [hsc] at h
            cases hmk : classItemMake b2 key pc.data with
            | error e => simp only [hmk] at h; cases h
            | ok item =>
              simp only [hmk] at h
              cases h
              exact midBody_update _ hm2 hfree (fun k hk => hk)
  · rw [if_neg he] at h
    cases h
    exact hm

theorem ppUses_mid {st₀ : ProgState} {key : StoreKey} (hfree : KeyFree st₀ key)
    (k0 : Klass) (b c : ProgState) (hm : MidBody key st₀ b)
    (h : ppUses key k0 b = .ok c) : MidBody key st₀ c := by
  unfold ppUses at h
  cases hu : k0.data.uses with
  | none =>
    simp only [hu] at h
    cases h
    exact hm
  | some us =>
    simp only [hu] at h
    cases hfa : klassFindAll b us with
    | error e => simp only [hfa] at h; cases h
    | ok impls =>
      simp only [hfa] at h
      by_cases hl : (impls.filterMap id).length > 0
      · rw [if_pos hl] at h
        cases h
        exact midBody_update _ hm hfree (fun k hk => hk)
      · rw [if_neg hl] at h
        cases h
        exact hm

theorem ppImplExec_mid {fuel : Nat}
    (hpp : ∀ k s s', postProcess fuel k s = .ok s' → Evol s s' ∧ FlagsMono s s')
    {st₀ : ProgState} {key : StoreKey} (hfree : KeyFree st₀ key)
    (b c : ProgState) (hm : MidBody key st₀ b)
    (h : ppImplExec (postProcess fuel) key b = .ok c) : MidBody key st₀ c := by
  unfold ppImplExec at h
  cases hi : (getKlass b key).bind (fun k => k.implements) with
  | none =>
    simp only [hi] at h
    cases h
    exact hm
  | some irs =>
    simp only [hi] at h
    exact processImpls_mid hpp hfree irs b c hm h

theorem midBody_start {st : ProgState} {key : StoreKey} {k0 : Klass}
    (halg : alGet key st.classes = some k0) (hflag : k0.postProcessed = false)
    (f : Klass → Klass) (hf : ∀ k, (f k).postProcessed = true) :
    MidBody key st (updateKlass st key f) := by
  have hfree : KeyFree st key := fun v hv => by
    rw [halg] at hv
    cases hv
    exact hflag
  refine ⟨evol_update f (evol_refl st) hfree, fm_update f (fm_refl st) (fun k _ => hf k), ?_⟩
  intro v hv
  refine ⟨f v, ?_, hf v⟩
  simp [updateKlass, alGet_alUpdate_self, hv]

/-- The master invariant of the resolution pass: a successful
`postProcess` leaves already-resolved classes untouched, only ever sets
(never clears) resolution flags, and flags the class it was invoked
on. -/
theorem postProcess_mid :
    ∀ (fuel : Nat) (key : StoreKey) (st st' : ProgState),
      postProcess fuel key st = .ok st' → MidBody key st st' := by
  intro fuel
  induction fuel with
  | zero =>
    intro key st st' h
    rw [postProcess] at h
    cases h
  | succ fuel ih =>
    intro key st st' h
    have hpp : ∀ k s s', postProcess fuel k s = .ok s' → Evol s s' ∧ FlagsMono s s' :=
      fun k s s' hh => ⟨(ih k s s' hh).1, (ih k s s' hh).2.1⟩
    rw [postProcess] at h
    cases halg : alGet key st.classes with
    | none =>
      simp only [halg] at h
      cases h
      exact ⟨evol_refl _, fm_refl _, fun v hv => by rw [halg] at hv; cases hv⟩
    | some k0 =>
      simp only [halg] at h
      by_cases hflag : k0.postProcessed = true
      · rw [if_pos hflag] at h
        cases h
        exact ⟨evol_refl _, fm_refl _, fun v hv => by
          rw [halg] at hv
          cases hv
          exact ⟨k0, halg, hflag⟩⟩
      · rw [if_neg hflag] at h
        have hflag0 : k0.postProcessed = false := by
          revert hflag
          cases k0.postProcessed <;> simp
        have hfree : KeyFree st key := fun v hv => by
          rw [halg] at hv
          cases hv
          exact hflag0
        have hm1 := midBody_start halg hflag0 (flagSet st.nsPaths) (fun k => rfl)
        cases hext : ppExtends (postProcess fuel) key k0
            (updateKlass st key (flagSet st.nsPaths)) with
        | error e => simp only [hext] at h; cases h
        | ok st2 =>
          simp only [hext] at h
          have hm2 := ppExtends_mid hpp hfree k0 _ _ hm1 hext
          cases huse : ppUses key k0 st2 with
          | error e => simp only [huse] at h; cases h
          | ok st3 =>
            simp only [huse] at h
            have hm3 := ppUses_mid hfree k0 _ _ hm2 huse
            exact ppImplExec_mid hpp hfree _ _ hm3 h

theorem forall2_fm_countP :
    ∀ {la lb : List (StoreKey × Klass)},
      List.Forall₂ (fun x y => x.1 = y.1 ∧ (x.2.postProcessed = true → y.2.postProcessed = true)) la lb →
      lb.countP (fun e => !e.2.postProcessed) ≤ la.countP (fun e => !e.2.postProcessed) := by
  intro la lb h
  induction h with
  | nil => exact Nat.le_refl 0
  | @cons x y la' lb' hxy h' ih =>
    rw [List.countP_cons, List.countP_cons]
    cases hx : x.2.postProcessed with
    | true =>
      have hy := hxy.2 hx
      simp only [hx, hy, Bool.not_true, Bool.false_eq_true, if_false]
      omega
    | false =>
      cases hy : y.2.postProcessed <;>
        simp only [hx, hy, Bool.not_true, Bool.not_false, Bool.false_eq_true, if_false, if_true] <;>
        omega

theorem unproc_fm {a b : ProgState} (h : FlagsMono a b) : unproc b ≤ unproc a :=
  forall2_fm_countP h.2

theorem unproc_update_lt_list {key : StoreKey} (f : Klass → Klass)
    (hf : ∀ k, (f k).postProcessed = true) :
    ∀ (l : List (StoreKey × Klass)) (v : Klass),
      alGet key l = some v → v.postProcessed = false →
      (alUpdate key f l).countP (fun e => !e.2.postProcessed) <
        l.countP (fun e => !e.2.postProcessed) := by
  intro l
  induction l with
  | nil => intro v hv; simp [alGet] at hv
  | cons hd t ih =>
    intro v hv hvf
    obtain ⟨k', w⟩ := hd
    by_cases hk : k' = key
    · rw [alGet, if_pos hk] at hv
      have hw : w.postProcessed = false := by rw [Option.some.inj hv]; exact hvf
      rw [alUpdate, if_pos hk, List.countP_cons, List.countP_cons]
      have h1 : (!(f w).postProcessed) = false := by rw [hf w]; rfl
      have h2 : (!w.postProcessed) = true := by rw [hw]; rfl
      simp only [h1, h2, Bool.false_eq_true, if_false, if_true]
      omega
    · rw [alGet, if_neg hk] at hv
      rw [alUpdate, if_neg hk, List.countP_cons, List.countP_cons]
      have := ih v hv hvf
      omega

theorem unproc_update_lt {st : ProgState} {key : StoreKey} {v : Klass} (f : Klass → Klass)
    (hf : ∀ k, (f k).postProcessed = true)
    (hv : alGet key st.classes = some v) (hvf : v.postProcessed = false) :
    unproc (updateKlass st key f) < unproc st :=
  unproc_update_lt_list f hf st.classes v hv hvf

theorem processImpls_fm {fuel : Nat}
    (hppm : ∀ k s s', postProcess fuel k s = .ok s' → FlagsMono s s') (key : StoreKey) :
    ∀ (irs : List ImplRef) (b c : ProgState),
      processImpls (postProcess fuel) key irs b = .ok c → FlagsMono b c := by
  intro irs
  induction irs with
  | nil =>
    intro b c h
    rw [processImpls] at h
    cases h
    exact fm_refl _
  | cons ir rest ih =>
    intro b c h
    cases ir with
    | str s =>
      rw [processImpls] at h
      exact ih b c h
    | kl pkey =>
      rw [processImpls] at h
      cases hppk : postProcess fuel pkey b with
      | error e => simp only [hppk] at h; cases h
      | ok b2 =>
        simp only [hppk] at h
        cases hg : getKlass b2 pkey with
        | none =>
          simp only [hg] at h
          exact fm_trans (hppm _ _ _ hppk) (ih b2 c h)
        | some pk =>
          simp only [hg] at h
          cases hcp : copyItems b2 key pk.items with
          | error e => simp only [hcp] at h; cases h
          | ok b3 =>
            simp only [hcp] at h
            exact fm_trans (hppm _ _ _ hppk)
              (fm_trans (copyItems_fm pk.items key b2 b3 hcp) (ih b3 c h))

theorem ppExtends_fm {fuel : Nat}
    (hppm : ∀ k s s', postProcess fuel k s = .ok s' → FlagsMono s s')
    (key : StoreKey) (k0 : Klass) (b c : ProgState)
    (h : ppExtends (postProcess fuel) key k0 b = .ok c) : FlagsMono b c := by
  unfold ppExtends at h
  by_cases he : optTruthy k0.data.extends_ = true
  · rw [if_pos he] at h
    cases hf : klassFind b (k0.data.extends_.getD "") false with
    | error e => simp only [hf] at h; cases h
    | ok r =>
      cases r with
      | none =>
        simp only [hf] at h
        cases h
        exact ⟨rfl, (fm_refl b).2⟩
      | some pkey =>
        simp only [hf] at h
        have fm1 : FlagsMono b
            (updateKlass b key (fun k => { k with extendsKlass := some pkey })) :=
          fm_update _ (fm_refl b) (fun k hk => hk)
        cases hrec : postProcess fuel pkey
            (updateKlass b key (fun k => { k with extendsKlass := some pkey })) with
        | error e => simp only [hrec] at h; cases h
        | ok b2 =>
          simp only [hrec] at h
          have fm2 : FlagsMono b b2 := fm_trans fm1 (hppm _ _ _ hrec)
          cases hsc : (getKlass b2 pkey).bind (fun pk => alGet "static:create" pk.items) with
          | none =>
            simp only [hsc] at h
            cases h
            exact fm2
          | some pc =>
            simp only [hsc] at h
            cases hmk : classItemMake b2 key pc.data with
            | error e => simp only [hmk] at h; cases h
            | ok item =>
              simp only [hmk] at h
              cases h
              exact fm_trans fm2 (fm_update _ (fm_refl b2) (fun k hk => hk))
  · rw [if_neg he] at h
    cases h
    exact fm_refl _

theorem ppUses_fm (key : StoreKey) (k0 : Klass) (b c : ProgState)
    (h : ppUses key k0 b = .ok c) : FlagsMono b c := by
  unfold ppUses at h
  cases hu : k0.data.uses with
  | none =>
    simp only [hu] at h
    cases h
    exact fm_refl _
  | some us =>
    simp only [hu] at h
    cases hfa : klassFindAll b us with
    | error e => simp only [hfa] at h; cases h
    | ok impls =>
      simp only [hfa] at h
      by_cases hl : (impls.filterMap id).length > 0
      · rw [if_pos hl] at h
        cases h
        exact fm_update _ (fm_refl b) (fun k hk => hk)
      · rw [if_neg hl] at h
        cases h
        exact fm_refl _

theorem processImpls_nf {fuel : Nat}
    (hppf : ∀ k s, unproc s < fuel → postProcess fuel k s ≠ .error .fuel)
    (hppm : ∀ k s s', postProcess fuel k s = .ok s' → FlagsMono s s') (key : StoreKey) :
    ∀ (irs : List ImplRef) (b : ProgState), unproc b < fuel →
      processImpls (postProcess fuel) key irs b ≠ .error .fuel := by
  intro irs
  induction irs with
  | nil =>
    intro b hb h
    rw [processImpls] at h
    cases h
  | cons ir rest ih =>
    intro b hb h
    cases ir with
    | str s =>
      rw [processImpls] at h
      exact ih b hb h
    | kl pkey =>
      rw [processImpls] at h
      cases hppk : postProcess fuel pkey b with
      | error e =>
        simp only [hppk] at h
        obtain rfl := Except.error.inj h
        exact hppf pkey b hb hppk
      | ok b2 =>
        simp only [hppk] at h
        have hb2 : unproc b2 < fuel :=
          Nat.lt_of_le_of_lt (unproc_fm (hppm _ _ _ hppk)) hb
        cases hg : getKlass b2 pkey with
        | none =>
          simp only [hg] at h
          exact ih b2 hb2 h
        | some pk =>
          simp only [hg] at h
          cases hcp : copyItems b2 key pk.items with
          | error e =>
            simp only [hcp] at h
            obtain rfl := Except.error.inj h
            exact copyItems_error pk.items key b2 _ hcp rfl
          | ok b3 =>
            simp only [hcp] at h
            have hb3 : unproc b3 < fuel :=
              Nat.lt_of_le_of_lt (unproc_fm (copyItems_fm pk.items key b2 b3 hcp)) hb2
            exact ih b3 hb3 h

theorem ppExtends_nf {fuel : Nat}
    (hppf : ∀ k s, unproc s < fuel → postProcess fuel k s ≠ .error .fuel)
    (key : StoreKey) (k0 : Klass) (b : ProgState) (hb : unproc b < fuel) :
    ppExtends (postProcess fuel) key k0 b ≠ .error .fuel := by
  intro h
  unfold ppExtends at h
  by_cases he : optTruthy k0.data.extends_ = true
  · rw [if_pos he] at h
    cases hf : klassFind b (k0.data.extends_.getD "") false with
    | error e =>
      simp only [hf] at h
      obtain rfl := Except.error.inj h
      exact klassFind_error b _ false _ hf rfl
    | ok r =>
      cases r with
      | none => simp only [hf] at h; cases h
      | some pkey =>
        simp only [hf] at h
        have hb1 : unproc (updateKlass b key (fun k => { k with extendsKlass := some pkey })) < fuel :=
          Nat.lt_of_le_of_lt (unproc_fm (fm_update _ (fm_refl b) (fun k hk => hk))) hb
        cases hrec : postProcess fuel pkey
            (updateKlass b key (fun k => { k with extendsKlass := some pkey })) with
        | error e =>
          simp only [hrec] at h
          obtain rfl := Except.error.inj h
          exact hppf pkey _ hb1 hrec
        | ok b2 =>
          simp only [hrec] at h
          cases hsc : (getKlass b2 pkey).bind (fun pk => alGet "static:create" pk.items) with
          | none => simp only [hsc] at h; cases h
          | some pc =>
            simp only [hsc] at h
            cases hmk : classItemMake b2 key pc.data with
            | error e =>
              simp only [hmk] at h
              obtain rfl := Except.error.inj h
              exact classItemMake_error b2 key pc.data _ hmk rfl
            | ok item => simp only [hmk] at h; cases h
  · rw [if_neg he] at h
    cases h

theorem ppUses_nf (key : StoreKey) (k0 : Klass) (b : ProgState) :
    ppUses key k0 b ≠ .error .fuel := by
  intro h
  unfold ppUses at h
  cases hu : k0.data.uses with
  | none => simp only [hu] at h; cases h
  | some us =>
    simp only [hu] at h
    cases hfa : klassFindAll b us with
    | error e =>
      simp only [hfa] at h
      obtain rfl := Except.error.inj h
      exact klassFindAll_error b us _ hfa rfl
    | ok impls =>
      simp only [hfa] at h
      by_cases hl : (impls.filterMap id).length > 0
      · rw [if_pos hl] at h; cases h
      · rw [if_neg hl] at h; cases h

/-- Fuel sufficiency for the resolution pass: since the guard flag is set
before any recursive call, the recursion depth is bounded by the number
of not-yet-resolved classes, and the fuel marker is unreachable with one
unit of fuel beyond that number. -/
theorem postProcess_nf :
    ∀ (fuel : Nat) (key : StoreKey) (st : ProgState),
      unproc st < fuel → postProcess fuel key st ≠ .error .fuel := by
  intro fuel
  induction fuel with
  | zero => intro key st hst; omega
  | succ fuel ih =>
    intro key st hst h
    have hppm : ∀ k s s', postProcess fuel k s = .ok s' → FlagsMono s s' :=
      fun k s s' hh => (postProcess_mid fuel k s s' hh).2.1
    rw [postProcess] at h
    cases halg : alGet key st.classes with
    | none => simp only [halg] at h; cases h
    | some k0 =>
      simp only [halg] at h
      by_cases hflag : k0.postProcessed = true
      · rw [if_pos hflag] at h; cases h
      · rw [if_neg hflag] at h
        have hflag0 : k0.postProcessed = false := by
          revert hflag
          cases k0.postProcessed <;> simp
        have hu1 : unproc (updateKlass st key (flagSet st.nsPaths)) < fuel := by
          have := unproc_update_lt (flagSet st.nsPaths) (fun k => rfl) halg hflag0
          omega
        cases hext : ppExtends (postProcess fuel) key k0
            (updateKlass st key (flagSet st.nsPaths)) with
        | error e =>
          simp only [hext] at h
          obtain rfl := Except.error.inj h
          exact ppExtends_nf ih key k0 _ hu1 hext
        | ok st2 =>
          simp only [hext] at h
          have hu2 : unproc st2 < fuel :=
            Nat.lt_of_le_of_lt (unproc_fm (ppExtends_fm hppm key k0 _ _ hext)) hu1
          cases huse : ppUses key k0 st2 with
          | error e =>
            simp only [huse] at h
            obtain rfl := Except.error.inj h
            exact ppUses_nf key k0 st2 huse
          | ok st3 =>
            simp only [huse] at h
            have hu3 : unproc st3 < fuel :=
              Nat.lt_of_le_of_lt (unproc_fm (ppUses_fm key k0 _ _ huse)) hu2
            unfold ppImplExec at h
            cases hi : (getKlass st3 key).bind (fun k => k.implements) with
            | none => simp only [hi] at h; cases h
            | some irs =>
              simp only [hi] at h
              exact processImpls_nf ih hppm key irs st3 hu3 h

theorem resolveGo_none (find : String → Option String) (h : ∀ s, find s = none)
    (parts : List String) (name : String) : ∀ n, resolveGo find parts name n = name := by
  intro n
  induction n with
  | zero => rfl
  | succ n ih => rw [resolveGo, h]; exact ih

theorem relativeName_none (find : String → Option String) (h : ∀ s, find s = none)
    (name base : String) :
    relativeName find name base = relativeName (fun _ => none) name base := by
  simp only [relativeName, resolveFullName]
  rw [resolveGo_none find h, resolveGo_none (fun _ => none) (fun _ => rfl)]

/-- C9: `relativeName` applied to `"Ember.Foo"` from base `"Ember.Foo.Bar"`
strips the shared ancestor prefix and yields `"Foo"` (when no class
lookup of step 1 rewrites the name), and whenever the stripped result
collides with a built-in primitive name, the unstripped (possibly
repaired) absolute name is returned instead. -/
theorem relativeName_strip_and_builtin :
    (∀ find : String → Option String, (∀ s, find s = none) →
      relativeName find "Ember.Foo" "Ember.Foo.Bar" = "Foo") ∧
    (∀ (find : String → Option String) (name base : String),
      RELATIVE_NAMES.lookup (resolveFullName find (splitStr '.' base) name) = none →
      BUILT_IN.contains
        (relStripGo (splitStr '.' base) (resolveFullName find (splitStr '.' base) name)
          (splitStr '.' base).length) = true →
      relativeName find name base = resolveFullName find (splitStr '.' base) name) := by
  constructor
  · intro find h
    rw [relativeName_none find h]
    decide
  · intro find name base h1 h2
    simp only [relativeName]
    rw [h1, if_pos h2]

/-- C9 witness: the stripping case at the concrete pair of the claim, and
the built-in collision case at `"Ember.Object"` referenced from
`"Ember.X"`. -/
theorem relativeName_strip_and_builtin_witness :
    relativeName (fun _ => none) "Ember.Foo" "Ember.Foo.Bar" = "Foo" ∧
    relativeName (fun _ => none) "Ember.Object" "Ember.X" =
      resolveFullName (fun _ => none) (splitStr '.' "Ember.X") "Ember.Object" :=
  ⟨relativeName_strip_and_builtin.1 (fun _ => none) (fun _ => rfl),
   relativeName_strip_and_builtin.2 (fun _ => none) "Ember.Object" "Ember.X"
     (by decide) (by decide)⟩

/-- C5 (code bug): the `Namespace` constructor computes `fullName` as
`[name, parent.name].join(".")` — child name first and only the parent's
own (simple, possibly absent) name after it — so the node registered for
`"Ember.RSVP"` gets `fullName = "RSVP.Ember"` (and the top-level node
`"Ember."`, the root's missing name rendering as the empty string),
not the ancestor-chain dot-join `"Ember.RSVP"` the specification
states. -/
theorem namespace_fullName_reversed :
    ((nsGetPath (nsCreatePath NsNode.rootNode ["Ember", "RSVP"]) ["Ember", "RSVP"]).map
      NsNode.fullName = some (some "RSVP.Ember")) ∧
    ((nsGetPath (nsCreatePath NsNode.rootNode ["Ember", "RSVP"]) ["Ember"]).map
      NsNode.fullName = some (some "Ember.")) ∧
    ("RSVP.Ember" : String) ≠ "Ember.RSVP" := by
  refine ⟨by decide, by decide, by decide⟩

/-- C6 counterexample: a two-class cyclic `extends` chain resolves to
completion — the run is not aborted and no diagnostic at all is
recorded, refuting "detects the cycle and reports it as a fatal
error". -/
theorem cyclic_extends_completes_without_error :
    (runProgram cycDocs).toOption.map (fun st => st.warnings) = some [] := by decide

/-- C6 amended: on a cyclic `extends` chain, resolution terminates via
the `postProcessed` re-entrancy guard and completes silently: both
classes end up resolved with their `extends` links set and the
diagnostic channel stays empty; no error is detected or reported. -/
theorem cyclic_extends_silent :
    ((runProgram cycDocs).toOption.map (fun st =>
      (getKlass st ([], "A")).map (fun k => k.postProcessed)) = some (some true)) ∧
    ((runProgram cycDocs).toOption.map (fun st =>
      (getKlass st ([], "B")).map (fun k => k.postProcessed)) = some (some true)) ∧
    ((runProgram cycDocs).toOption.map (fun st =>
      (getKlass st ([], "A")).map (fun k => k.extendsKlass)) =
      some (some (some ([], "B")))) ∧
    ((runProgram cycDocs).toOption.map (fun st =>
      (getKlass st ([], "B")).map (fun k => k.extendsKlass)) =
      some (some (some ([], "A")))) ∧
    ((runProgram cycDocs).toOption.map (fun st => st.warnings) = some []) := by
  refine ⟨by decide, by decide, by decide, by decide, by decide⟩

/-- C4 counterexample: a mixin name that fails to resolve (its namespace
— the root — exists) is dropped with NO recorded warning: the run
completes with an empty diagnostic channel and no `implements` set. -/
theorem unresolved_mixin_dropped_silently :
    ((runProgram c4Docs).toOption.map (fun st => st.warnings) = some []) ∧
    ((runProgram c4Docs).toOption.map (fun st =>
      (getKlass st ([], "Foo")).map (fun k => k.implements)) = some (some none)) := by
  refine ⟨by decide, by decide⟩

/-- C4 amended: a mixin name whose namespace path exists but that names
no registered class is dropped silently (no warning) while resolvable
mixins are kept and resolution continues; a mixin name whose namespace
path does not exist at all instead throws a fatal lookup error aborting
the run. -/
theorem unresolved_mixin_behaviour :
    ((runProgram c4bDocs).toOption.map (fun st => st.warnings) = some []) ∧
    ((runProgram c4bDocs).toOption.map (fun st =>
      (getKlass st ([], "Foo")).map (fun k => k.implements)) =
      some (some (some [ImplRef.kl ([], "M")]))) ∧
    runProgram c4cDocs = .error (.noNamespace "No.Such.Ns.X") := by
  refine ⟨by decide, by decide, by decide⟩

/-- C7: resolution is idempotent — a second invocation of `postProcess`
on a class after a successful first one returns the state entirely
unchanged (in particular the member map, the `extends` link and the
`implements` set), because the re-entrancy flag set by the first run
short-circuits the body. -/
theorem forall2_keys_isSome (key : StoreKey) :
    ∀ {la lb : List (StoreKey × Klass)},
      List.Forall₂ (fun x y => x.1 = y.1 ∧ (x.2.postProcessed = true → y = x)) la lb →
      (alGet key la).isSome = (alGet key lb).isSome := by
  intro la lb h
  induction h with
  | nil => rfl
  | @cons x y la' lb' hxy h' ih =>
    obtain ⟨x1, x2⟩ := x
    obtain ⟨y1, y2⟩ := y
    simp only at hxy
    obtain ⟨rfl, _⟩ := hxy
    by_cases hk : x1 = key
    · rw [alGet, if_pos hk, alGet, if_pos hk]
      rfl
    · rw [alGet, if_neg hk, alGet, if_neg hk]
      exact ih

theorem postProcess_idempotent (fuel fuel' : Nat) (key : StoreKey) (st st' : ProgState)
    (h : postProcess fuel key st = .ok st') (hf : 0 < fuel') :
    postProcess fuel' key st' = .ok st' := by
  obtain ⟨g, rfl⟩ : ∃ g, fuel' = g + 1 := ⟨fuel' - 1, by omega⟩
  have hmid := postProcess_mid fuel key st st' h
  rw [postProcess]
  cases halg' : alGet key st'.classes with
  | none => simp only [halg']
  | some v' =>
    simp only [halg']
    have hiso := forall2_keys_isSome key hmid.1.2
    rw [halg'] at hiso
    cases halg : alGet key st.classes with
    | none =>
      rw [halg] at hiso
      simp at hiso
    | some v =>
      obtain ⟨v'', hv'', hvf''⟩ := hmid.2.2 v halg
      rw [halg'] at hv''
      obtain rfl := Option.some.inj hv''
      rw [if_pos hvf'']

/-- C7 witness: re-resolving the concrete resolved class is the
identity. -/
theorem postProcess_idempotent_witness :
    postProcess 1 c7key c7out = .ok c7out :=
  postProcess_idempotent 2 1 c7key c7pre c7out (by decide) (by decide)

/-- C10: resolution terminates on every input, cyclic `extends`/`uses`
edges included: the guard flag is set before any recursive call, so the
recursion depth is bounded by the number of unresolved classes (the fuel
marker is unreachable once the fuel exceeds that number), and a cyclic
three-class chain completes with every class resolved and no error or
diagnostic whatsoever. -/
theorem postProcess_terminates :
    (∀ (fuel : Nat) (key : StoreKey) (st : ProgState),
      unproc st < fuel → postProcess fuel key st ≠ .error .fuel) ∧
    ((runProgram cyc3Docs).toOption.map (fun st => st.warnings) = some []) ∧
    ((runProgram cyc3Docs).toOption.map (fun st =>
      (getKlass st ([], "X")).map (fun k => k.postProcessed)) = some (some true)) ∧
    ((runProgram cyc3Docs).toOption.map (fun st =>
      (getKlass st ([], "Y")).map (fun k => k.postProcessed)) = some (some true)) ∧
    ((runProgram cyc3Docs).toOption.map (fun st =>
      (getKlass st ([], "Z")).map (fun k => k.postProcessed)) = some (some true)) := by
  refine ⟨postProcess_nf, by decide, by decide, by decide, by decide⟩

/-- C10 witness: the termination bound applied to a concrete state. -/
theorem postProcess_terminates_witness :
    postProcess 2 c7key c7pre ≠ .error .fuel :=
  postProcess_terminates.1 2 c7key c7pre (by decide)

/-- C3 counterexample: for the method with params `[a, b*, c]` the second
emitted declaration is `f(a: number, c: boolean)` — the parameter after
the rest parameter is KEPT (only the rest parameter itself is filtered
out), not dropped as the claim states. -/
theorem rest_param_second_declaration_keeps_tail :
    ((ClassItem.make (fun _ => none) c3key "Foo" "Foo" c3data).toOption.map
      (ClassItem.declarations false false) =
      some ["f(a: number, ...b: string[])", "f(a: number, c: boolean)"]) ∧
    ("f(a: number, c: boolean)" : String) ≠ "f(a: number)" := by
  refine ⟨by decide, by decide⟩

/-- C3 amended: a method whose rest parameter is not last emits exactly
two declarations — the first truncating the parameter list immediately
after the rest parameter (rendered as a variadic array of its first
listed type), the second filtering out ONLY the rest parameter and
keeping the parameters declared after it (a fixed-arity overload that
retains the trailing parameters). -/
theorem rest_param_two_declarations :
    (∀ (ons otc : Bool) (i : ClassItem) (ps : List ClassItemParam) (idx : Nat),
      i.params = some ps → ps.findIdx? (fun p => p.rest) = some idx →
      idx ≠ ps.length - 1 →
      (i.declarations ons otc).length = 2 ∧
      i.declarations ons otc =
        [i.buildDeclaration ons otc false, i.buildDeclaration ons otc true]) ∧
    (c3item.params = some c3params) ∧
    (c3item.buildDeclaration false false false = "f(a: number, ...b: string[])") ∧
    (c3item.buildDeclaration false false true = "f(a: number, c: boolean)") := by
  refine ⟨?_, by decide, by decide, by decide⟩
  intro ons otc i ps idx hps hidx hne
  unfold ClassItem.declarations
  simp only [hps, hidx, if_pos hne]
  exact ⟨rfl, rfl⟩

/-- C3 witness: the universal part applied to the concrete `[a, b*, c]`
member. -/
theorem rest_param_two_declarations_witness :
    (c3item.declarations false false).length = 2 ∧
    c3item.declarations false false =
      [c3item.buildDeclaration false false false, c3item.buildDeclaration false false true] :=
  rest_param_two_declarations.1 false false c3item c3params 1
    (by decide) (by decide) (by decide)

/-- C8 counterexample: a generic argument list with three comma-separated
arguments does not have all of its commas converted: the converter turns
only the first comma into a bar, after which the space-splitting step
truncates the rest, yielding a mangled type that still contains a
comma. -/
theorem generic_commas_not_all_converted :
    (convertType (fun _ => none) "Foo<A, B, C>" none = "Foo<A|B,") ∧
    ("Foo<A|B," : String) ≠ "Foo<A|B|C>" := by
  refine ⟨by decide, by decide⟩

theorem splitFirst_comma_none :
    ∀ l : List Char, l.count ',' = 0 → splitFirst (fun c => c = ',') l = none := by
  intro l
  induction l with
  | nil => intro _; rfl
  | cons c cs ih =>
    intro h
    rw [List.count_cons] at h
    by_cases hc : c = ','
    · simp [hc] at h
    · rw [splitFirst, if_neg (by simpa using hc)]
      rw [ih (by omega)]
      rfl

theorem splitFirst_comma_some :
    ∀ (l a b : List Char), splitFirst (fun c => c = ',') l = some (a, b) →
      l = a ++ ',' :: b ∧ a.count ',' = 0 := by
  intro l
  induction l with
  | nil => intro a b h; cases h
  | cons c cs ih =>
    intro a b h
    by_cases hc : c = ','
    · rw [splitFirst, if_pos (by simpa using hc)] at h
      have hab : (a, b) = (([] : List Char), cs) := (Option.some.inj h).symm
      have ha : a = [] := congrArg Prod.fst hab
      have hb : b = cs := congrArg Prod.snd hab
      subst ha
      subst hb
      subst hc
      exact ⟨rfl, rfl⟩
    · rw [splitFirst, if_neg (by simpa using hc)] at h
      cases hs : splitFirst (fun c => c = ',') cs with
      | none => rw [hs] at h; simp at h
      | some p =>
        obtain ⟨a', b'⟩ := p
        rw [hs] at h
        simp only [Option.map_some'] at h
        have hab : (a, b) = (c :: a', b') := (Option.some.inj h).symm
        have ha : a = c :: a' := congrArg Prod.fst hab
        have hb : b = b' := congrArg Prod.snd hab
        subst ha
        subst hb
        obtain ⟨h3, h4⟩ := ih a' b hs
        constructor
        · rw [List.cons_append, h3]
        · rw [List.count_cons, h4]
          simp [hc]

theorem splitFirst_comma_none_iff :
    ∀ l : List Char, splitFirst (fun c => c = ',') l = none → l.count ',' = 0 := by
  intro l
  induction l with
  | nil => intro _; rfl
  | cons c cs ih =>
    intro h
    rw [splitFirst] at h
    by_cases hc : c = ','
    · rw [if_pos (by simpa using hc)] at h
      cases h
    · rw [if_neg (by simpa using hc)] at h
      cases hs : splitFirst (fun c => c = ',') cs with
      | some p => rw [hs] at h; simp at h
      | none =>
        rw [List.count_cons]
        simp [hc, ih hs]

theorem count_comma_dropWhile_ws (b : List Char) :
    (b.dropWhile isWs).count ',' = b.count ',' := by
  conv_rhs => rw [← List.takeWhile_append_dropWhile (p := isWs) (l := b)]
  rw [List.count_append]
  have : (b.takeWhile isWs).count ',' = 0 := by
    rw [List.count_eq_zero]
    intro hmem
    have := List.mem_takeWhile_imp hmem
    simp [isWs] at this
  omega

theorem count_comma_dropWsRight (a : List Char) :
    (dropWsRight a).count ',' ≤ a.count ',' := by
  unfold dropWsRight
  calc ((a.reverse.dropWhile isWs).reverse).count ','
      = (a.reverse.dropWhile isWs).count ',' := by
        rw [List.count_reverse]
    _ ≤ a.reverse.count ',' := (List.dropWhile_sublist _).count_le _
    _ = a.count ',' := by rw [List.count_reverse]

/-- C8 amended: the generic-comma normalization converts exactly the
FIRST comma separator inside the angle brackets to the bar — the
embedded replacement removes precisely one comma when one is present and
is the identity otherwise — so a two-argument generic is fully
normalized while a three-or-more-argument generic keeps its later commas
(and is then truncated at the first space by the description-stripping
step). -/
theorem generic_comma_first_only :
    (∀ l : List Char, l.count ',' = 0 → barFirstComma l = l) ∧
    (∀ l : List Char, 1 ≤ l.count ',' →
      (barFirstComma l).count ',' + 1 = l.count ',') ∧
    (convertType (fun _ => none) "Map<String, Number>" none = "Map<String|Number>") ∧
    (convertType (fun _ => none) "Dict<A, B, C>" none = "Dict<A|B,") := by
  refine ⟨?_, ?_, by decide, by decide⟩
  · intro l h
    unfold barFirstComma
    rw [splitFirst_comma_none l h]
  · intro l h
    unfold barFirstComma
    cases hs : splitFirst (fun c => c = ',') l with
    | none =>
      exact absurd (splitFirst_comma_none_iff l hs) (by omega)
    | some p =>
      obtain ⟨a, b⟩ := p
      obtain ⟨hl, ha⟩ := splitFirst_comma_some l a b hs
      rw [List.count_append, List.count_cons, hl, List.count_append, List.count_cons]
      have h1 := count_comma_dropWsRight a
      have h2 := count_comma_dropWhile_ws b
      have hbar : ¬ ((('|' : Char) == ',') = true) := by decide
      have hcomma : ((',' : Char) == ',') = true := by decide
      rw [if_neg hbar, if_pos hcomma, h2]
      omega

/-- C8 witness: the first-comma conversion facts applied to concrete
character lists (no comma: identity; one of two commas removed). -/
theorem generic_comma_first_only_witness :
    (barFirstComma ("ab".toList) = "ab".toList) ∧
    ((barFirstComma ("a, b, c".toList)).count ',' + 1 = ("a, b, c".toList).count ',') :=
  ⟨generic_comma_first_only.1 ("ab".toList) (by decide),
   generic_comma_first_only.2.1 ("a, b, c".toList) (by decide)⟩

/-- C1 counterexample: a public property of a resolved parent is NOT
copied into the extending child's member map — after the full run the
parent holds public `foo` while the resolved child's map does not
contain `foo` at all. -/
theorem extends_does_not_copy_general_members :
    ((runProgram c1Docs).toOption.map (fun st =>
      (getKlass st ([], "P")).map (fun k => (alGet "foo" k.items).map (fun i => i.private_))) =
      some (some (some false))) ∧
    ((runProgram c1Docs).toOption.map (fun st =>
      (getKlass st ([], "C")).map (fun k => (alGet "foo" k.items).isSome)) =
      some (some false)) ∧
    ((runProgram c1Docs).toOption.map (fun st =>
      (getKlass st ([], "C")).map (fun k => k.postProcessed)) = some (some true)) := by
  refine ⟨by decide, by decide, by decide⟩

/-- C2 counterexample: attaching a second member record under the key
`bar` records the duplicate warning but OVERWRITES the first — the final
map holds the second record's converted type (`number`), not the first
(`string`). -/
theorem duplicate_member_second_wins_example :
    ((runProgram c2Docs).toOption.map (fun st => st.warnings) =
      some ["Duplicate item for klass; klass=Foo, item=bar"]) ∧
    ((runProgram c2Docs).toOption.map (fun st =>
      (getKlass st ([], "Foo")).map (fun k => (alGet "bar" k.items).map (fun i => i.type))) =
      some (some (some "number"))) ∧
    ("number" : String) ≠ "string" := by
  refine ⟨by decide, by decide, by decide⟩

/-- C2 amended: attaching a member item under a key the class already
holds records the duplicate diagnostic AND overwrites the earlier
member: the map afterwards holds the newly constructed item (last write
wins), not the first registration. -/
theorem duplicate_member_warns_and_overwrites
    (st : ProgState) (data : ItemData) (key : StoreKey) (item old : ClassItem)
    (hig : ignoreItem data.clazz = false)
    (hfind : klassFind st data.clazz false = .ok (some key))
    (hname : optTruthy data.name = true)
    (htype : data.itemtype = some "method" ∨ data.itemtype = some "property" ∨
      data.itemtype = some "event")
    (hmk : classItemMake st key data = .ok item)
    (hdup : (getKlass st key).bind (fun k => alGet item.key k.items) = some old) :
    ∃ st', loadClassItem st data = .ok st' ∧
      st'.warnings = st.warnings ++
        ["Duplicate item for klass; klass="
          ++ (((getKlass st key).map (fun k => k.fullName)).getD "") ++ ", item=" ++ item.key] ∧
      (getKlass st' key).bind (fun k => alGet item.key k.items) = some item := by
  obtain ⟨k₀, hk₀⟩ : ∃ k₀, getKlass st key = some k₀ := by
    cases hg : getKlass st key with
    | none => rw [hg] at hdup; simp at hdup
    | some k₀ => exact ⟨k₀, rfl⟩
  have hnig : ¬ ignoreItem data.clazz = true := by rw [hig]; simp
  have hdups : ((getKlass st key).bind (fun k => alGet item.key k.items)).isSome = true := by
    rw [hdup]
    rfl
  refine ⟨updateKlass (warn st ("Duplicate item for klass; klass="
      ++ (((getKlass st key).map (fun k => k.fullName)).getD "") ++ ", item=" ++ item.key))
      key (fun k => { k with items := alSet item.key item k.items }), ?_, ?_, ?_⟩
  · unfold loadClassItem
    rw [if_neg hnig]
    simp only [hfind]
    rw [if_pos ⟨hname, htype⟩]
    simp only [hmk]
    rw [if_pos hdups]
  · rfl
  · unfold getKlass
    simp only [updateKlass_classes, warn_classes]
    rw [alGet_alUpdate_self]
    unfold getKlass at hk₀
    rw [hk₀]
    simp only [Option.map_some']
    exact alGet_alSet_self item.key item k₀.items

/-- C2 witness: the overwrite applied to the concrete duplicate `bar`
member of class `Foo`. -/
theorem duplicate_member_warns_and_overwrites_witness :
    ∃ st', loadClassItem c2wSt c2wData = .ok st' ∧
      st'.warnings = c2wSt.warnings ++
        ["Duplicate item for klass; klass="
          ++ (((getKlass c2wSt c2wKey).map (fun k => k.fullName)).getD "")
          ++ ", item=" ++ c2wItem.key] ∧
      (getKlass st' c2wKey).bind (fun k => alGet c2wItem.key k.items) = some c2wItem :=
  duplicate_member_warns_and_overwrites c2wSt c2wData c2wKey c2wItem c2wOld
    (by decide) (by decide) (by decide) (by decide) (by decide) (by decide)

/-- C1 amended: resolving a class whose `extends` target is an
already-resolved registered class copies ONLY the parent's
`static:create` member into the child (attributed to the child); no
other member key of the child's map changes through the `extends` link
(general public-member copying happens only for the mixin/`implements`
list). -/
theorem extends_copies_only_static_create
    (fuel : Nat) (st st' : ProgState) (key pkey : StoreKey) (k0 pk : Klass) (pc : ClassItem)
    (hk : alGet key st.classes = some k0)
    (hflag : k0.postProcessed = false)
    (himpl : k0.implements = none)
    (huses : k0.data.uses = none)
    (hext : optTruthy k0.data.extends_ = true)
    (hfind : klassFind st (k0.data.extends_.getD "") false = .ok (some pkey))
    (hp : alGet pkey st.classes = some pk)
    (hpflag : pk.postProcessed = true)
    (hpc : alGet "static:create" pk.items = some pc)
    (hrun : postProcess (fuel + 2) key st = .ok st') :
    ∃ k', alGet key st'.classes = some k' ∧
      (∃ item, alGet "static:create" k'.items = some item ∧ item.klass = key) ∧
      (∀ nm, nm ≠ "static:create" → alGet nm k'.items = alGet nm k0.items) := by
  have hne : pkey ≠ key := by
    intro hh
    rw [hh, hk] at hp
    have hpe := Option.some.inj hp
    rw [← hpe, hflag] at hpflag
    cases hpflag
  have hnflag : ¬ k0.postProcessed = true := by rw [hflag]; simp
  have hrw : fuel + 2 = Nat.succ (fuel + 1) := rfl
  rw [hrw, postProcess] at hrun
  simp only [hk] at hrun
  rw [if_neg hnflag] at hrun
  have hfind1 : klassFind (updateKlass st key (flagSet st.nsPaths))
      (k0.data.extends_.getD "") false = .ok (some pkey) := by
    rw [klassFind_update]
    exact hfind
  have hpk2 : alGet pkey (updateKlass (updateKlass st key (flagSet st.nsPaths)) key
      (fun k => { k with extendsKlass := some pkey })).classes = some pk := by
    simp only [updateKlass_classes]
    rw [alGet_alUpdate_ne _ _ _ _ hne, alGet_alUpdate_ne _ _ _ _ hne]
    exact hp
  have hguard : postProcess (fuel + 1) pkey
      (updateKlass (updateKlass st key (flagSet st.nsPaths)) key
        (fun k => { k with extendsKlass := some pkey })) = .ok
      (updateKlass (updateKlass st key (flagSet st.nsPaths)) key
        (fun k => { k with extendsKlass := some pkey })) := by
    have hrw1 : fuel + 1 = Nat.succ fuel := rfl
    rw [hrw1, postProcess]
    simp only [hpk2]
    rw [if_pos hpflag]
  have hsc2 : (getKlass (updateKlass (updateKlass st key (flagSet st.nsPaths)) key
      (fun k => { k with extendsKlass := some pkey })) pkey).bind
      (fun pk => alGet "static:create" pk.items) = some pc := by
    unfold getKlass
    rw [hpk2]
    exact hpc
  cases hmk : classItemMake (updateKlass (updateKlass st key (flagSet st.nsPaths)) key
      (fun k => { k with extendsKlass := some pkey })) key pc.data with
  | error e =>
    have hext2 : ppExtends (postProcess (fuel + 1)) key k0
        (updateKlass st key (flagSet st.nsPaths)) = .error e := by
      unfold ppExtends
      rw [if_pos hext]
      simp only [hfind1, hguard, hsc2, hmk]
    simp only [hext2] at hrun
    cases hrun
  | ok item =>
    have hext2 : ppExtends (postProcess (fuel + 1)) key k0
        (updateKlass st key (flagSet st.nsPaths)) = .ok
        (updateKlass (updateKlass (updateKlass st key (flagSet st.nsPaths)) key
          (fun k => { k with extendsKlass := some pkey })) key
          (fun k => { k with items := alSet "static:create" item k.items })) := by
      unfold ppExtends
      rw [if_pos hext]
      simp only [hfind1, hguard, hsc2, hmk]
    simp only [hext2] at hrun
    have huse2 : ppUses key k0
        (updateKlass (updateKlass (updateKlass st key (flagSet st.nsPaths)) key
          (fun k => { k with extendsKlass := some pkey })) key
          (fun k => { k with items := alSet "static:create" item k.items })) = .ok
        (updateKlass (updateKlass (updateKlass st key (flagSet st.nsPaths)) key
          (fun k => { k with extendsKlass := some pkey })) key
          (fun k => { k with items := alSet "static:create" item k.items })) := by
      unfold ppUses
      rw [huses]
    simp only [huse2] at hrun
    have hk4 : alGet key
        (updateKlass (updateKlass (updateKlass st key (flagSet st.nsPaths)) key
          (fun k => { k with extendsKlass := some pkey })) key
          (fun k => { k with items := alSet "static:create" item k.items })).classes =
        some { flagSet st.nsPaths k0 with
                 extendsKlass := some pkey,
                 items := alSet "static:create" item (flagSet st.nsPaths k0).items } := by
      simp only [updateKlass_classes]
      rw [alGet_alUpdate_self, alGet_alUpdate_self, alGet_alUpdate_self, hk]
      rfl
    have himp2 : ppImplExec (postProcess (fuel + 1)) key
        (updateKlass (updateKlass (updateKlass st key (flagSet st.nsPaths)) key
          (fun k => { k with extendsKlass := some pkey })) key
          (fun k => { k with items := alSet "static:create" item k.items })) = .ok
        (updateKlass (updateKlass (updateKlass st key (flagSet st.nsPaths)) key
          (fun k => { k with extendsKlass := some pkey })) key
          (fun k => { k with items := alSet "static:create" item k.items })) := by
      unfold ppImplExec
      unfold getKlass
      rw [hk4]
      have hbind : (some { flagSet st.nsPaths k0 with
            extendsKlass := some pkey,
            items := alSet "static:create" item (flagSet st.nsPaths k0).items }).bind
          (fun k => k.implements) = none := himpl
      rw [hbind]
    rw [himp2] at hrun
    obtain rfl : (updateKlass (updateKlass (updateKlass st key (flagSet st.nsPaths)) key
        (fun k => { k with extendsKlass := some pkey })) key
        (fun k => { k with items := alSet "static:create" item k.items })) = st' :=
      Except.ok.inj hrun
    refine ⟨_, hk4, ⟨item, ?_, classItemMake_ok _ _ _ _ hmk⟩, ?_⟩
    · exact alGet_alSet_self "static:create" item (flagSet st.nsPaths k0).items
    · intro nm hnm
      exact alGet_alSet_ne nm "static:create" item (flagSet st.nsPaths k0).items hnm

/-- C1 witness: the static-create-only copy at the concrete two-class
state (parent resolved with a `static:create` and an `other` member). -/
theorem extends_copies_only_static_create_witness :
    ∃ k', alGet c1wKey c1wOut.classes = some k' ∧
      (∃ item, alGet "static:create" k'.items = some item ∧ item.klass = c1wKey) ∧
      (∀ nm, nm ≠ "static:create" → alGet nm k'.items = alGet nm c1wK0.items) :=
  extends_copies_only_static_create 0 c1wSt c1wOut c1wKey ([], "P") c1wK0 c1wPk c1wPc
    (by decide) (by decide) (by decide) (by decide) (by decide) (by decide) (by decide)
    (by decide) (by decide) (by decide)

end TypGen
